import Mathlib

/-!
# objx-xml: schema-driven XML builder (`xml.go`)

A shallow embedding of `xml.go` and a verification of its specification.

Conventions of the embedding.

* Go strings are Lean `String`s.  `s[0]` is the first character and `s[1:]` the
  rest; the program only compares `s[0]` with the ASCII characters `?`, `@`, `:`
  and `/`, and only uses `s[1:]` after such a comparison succeeded, so bytes and
  characters agree wherever the program looks.
* A Go `error` is an `Option String` (`none` is `nil`, `some m` an error whose
  message is `m`).
* A call that can abort with a run-time panic returns a `Result`.
* Go's `for ... range` over a map visits the entries in an unspecified order; a
  schema is the list of its entries in the order in which the loop visits them.
* The libraries the program calls are capabilities: the data bag (`objx`) is a
  record of its accessors, which return normally at every path; the
  regular-expression engine (`regexp`) is a record of `Compile` and
  `ReplaceAllString`; the serializer (`etree`) is a function from the finished
  tree to text.  Statements hold for every such capability; concrete inputs use
  the reference engine `goRegexp` and the plain serializer `renderXml`.
-/

namespace ObjxXml

/-! ## Strings (package `strings`) -/

/-- Go `strings.Split(s, sep)` for a one-character separator, on character lists. -/
def splitChars (sep : Char) : List Char → List (List Char)
  | [] => [[]]
  | c :: cs =>
    if c = sep then [] :: splitChars sep cs
    else
      match splitChars sep cs with
      | [] => [[c]]
      | p :: ps => (c :: p) :: ps

/-- Go `strings.Split(s, sep)` for a one-character separator. -/
def Split (s : String) (sep : Char) : List String :=
  (splitChars sep s.data).map String.mk

/-- Go `strings.Trim(s, cutset)` for a one-character cutset, on character lists. -/
def trimChars (c : Char) (cs : List Char) : List Char :=
  ((cs.dropWhile (fun x => x == c)).reverse.dropWhile (fun x => x == c)).reverse

/-- Go `strings.Trim(s, cutset)` for a one-character cutset. -/
def Trim (s : String) (c : Char) : String :=
  String.mk (trimChars c s.data)

/-! ## Results -/

/-- Outcome of a Go call that may abort: a normal return or a run-time panic. -/
inductive Result (α : Type) where
  | ok (a : α)
  | panic
deriving DecidableEq, Repr

/-! ## Regular expressions (package `regexp`) -/

/-- The part of Go's `regexp` package that `getValidatedValue` calls. -/
structure RegexpLib where
  /-- Compiled patterns, `*regexp.Regexp`. -/
  Regexp : Type
  /-- `regexp.Compile`; `none` when the pattern is not a valid expression. -/
  Compile : String → Option Regexp
  /-- `(*Regexp).ReplaceAllString(src, repl)`. -/
  ReplaceAllString : Regexp → String → String → String

/-- Go `regexp.MustCompile`: as `Compile`, but panics when the pattern is rejected. -/
def RegexpLib.MustCompile (L : RegexpLib) (pattern : String) : Result L.Regexp :=
  match L.Compile pattern with
  | some r => .ok r
  | none => .panic

/-! ## A reference engine for a fragment of Go's regular expressions

The fragment: literal characters, `\` followed by a punctuation character, `.`,
`^`, `$`, bracket classes of characters and ranges (optionally negated), groups
`( )`, alternation `|` and one greedy postfix operator `*`, `+` or `?` per atom.
Matching is leftmost-first, as in package `regexp`: the match found is the one a
backtracking search finds first.  Positions count characters.  Patterns outside
the fragment are not compiled by `compile`; the development evaluates the engine
only at patterns inside it. -/

/-- Abstract syntax of the fragment. -/
inductive Regex where
  | empty
  | lit (c : Char)
  | any
  | cls (neg : Bool) (ranges : List (Char × Char))
  | bol
  | eol
  | cat (a b : Regex)
  | alt (a b : Regex)
  | star (a : Regex)
  | plus (a : Regex)
  | quest (a : Regex)
deriving DecidableEq, Repr

/-- Membership of a character in a list of inclusive ranges. -/
def inRanges (ranges : List (Char × Char)) (c : Char) : Bool :=
  ranges.any (fun r => decide (r.1.val ≤ c.val) && decide (c.val ≤ r.2.val))

/-- Greedy iteration of a matcher `m`; an iteration must consume input. -/
def starLoop (m : Nat → List Char → (Nat → List Char → Option Nat) → Option Nat) :
    Nat → Nat → List Char → (Nat → List Char → Option Nat) → Option Nat
  | 0, pos, cs, k => k pos cs
  | n + 1, pos, cs, k =>
    match m pos cs (fun p r => if r.length < cs.length then starLoop m n p r k else none) with
    | some e => some e
    | none => k pos cs

/-- Backtracking matcher: `run re pos cs k` matches `re` at character position
`pos`, where `cs` is the text from `pos` on, and hands the position and text
after the match to `k`; the result is the end of the first successful match. -/
def Regex.run : Regex → Nat → List Char → (Nat → List Char → Option Nat) → Option Nat
  | .empty, pos, cs, k => k pos cs
  | .lit c, pos, cs, k =>
    match cs with
    | d :: ds => if d = c then k (pos + 1) ds else none
    | [] => none
  | .any, pos, cs, k =>
    match cs with
    | d :: ds => if d = '\n' then none else k (pos + 1) ds
    | [] => none
  | .cls neg ranges, pos, cs, k =>
    match cs with
    | d :: ds => if inRanges ranges d = neg then none else k (pos + 1) ds
    | [] => none
  | .bol, pos, cs, k => if pos = 0 then k pos cs else none
  | .eol, pos, cs, k => if cs.isEmpty then k pos cs else none
  | .cat a b, pos, cs, k => a.run pos cs (fun p r => b.run p r k)
  | .alt a b, pos, cs, k =>
    match a.run pos cs k with
    | some e => some e
    | none => b.run pos cs k
  | .star a, pos, cs, k => starLoop (fun p r k2 => a.run p r k2) cs.length pos cs k
  | .plus a, pos, cs, k =>
    a.run pos cs (fun p r => starLoop (fun p2 r2 k2 => a.run p2 r2 k2) r.length p r k)
  | .quest a, pos, cs, k =>
    match a.run pos cs k with
    | some e => some e
    | none => k pos cs

/-- The whole text is one match of the expression (as `^(?:re)$` would test). -/
def Regex.fullMatch (re : Regex) (s : String) : Bool :=
  (re.run 0 s.data (fun e r => if r.isEmpty then some e else none)).isSome

/-- Leftmost match starting at or after `pos`, where `cs` is the text from `pos`
on: its start and end positions. -/
def Regex.find (re : Regex) : Nat → List Char → Option (Nat × Nat)
  | pos, [] => (re.run pos [] (fun e _ => some e)).map (fun e => (pos, e))
  | pos, c :: cs =>
    match re.run pos (c :: cs) (fun e _ => some e) with
    | some e => some (pos, e)
    | none => re.find (pos + 1) cs

/-- The loop of Go's `(*Regexp).replaceAll`. -/
def replaceLoop (re : Regex) (src repl : List Char) :
    Nat → Nat → Nat → List Char → List Char
  | 0, lastMatchEnd, _, buf => buf ++ src.drop lastMatchEnd
  | n + 1, lastMatchEnd, searchPos, buf =>
    if searchPos ≤ src.length then
      match re.find searchPos (src.drop searchPos) with
      | none => buf ++ src.drop lastMatchEnd
      | some (a0, a1) =>
        let buf1 := buf ++ (src.take a0).drop lastMatchEnd
        let buf2 := if a1 > lastMatchEnd ∨ a0 = 0 then buf1 ++ repl else buf1
        let width := if searchPos < src.length then 1 else 0
        let searchPos1 :=
          if searchPos + width > a1 then searchPos + width
          else if searchPos + 1 > a1 then searchPos + 1
          else a1
        replaceLoop re src repl n a1 searchPos1 buf2
    else buf ++ src.drop lastMatchEnd

/-- Punctuation that `\` may escape. -/
def isPunct (c : Char) : Bool :=
  c.val < 128 && !c.isAlphanum && !c.isWhitespace && decide (32 < c.val)

/-- Items of a bracket class up to the closing `]`. -/
def parseClass : Nat → List Char → Option (List (Char × Char) × List Char)
  | 0, _ => none
  | _ + 1, [] => none
  | _ + 1, ']' :: rest => some ([], rest)
  | n + 1, lo :: '-' :: hi :: rest =>
    if lo = '\\' ∨ lo = '[' ∨ lo = '-' ∨ hi = '\\' ∨ hi = '[' ∨ hi = ']' ∨ hi = '-' then none
    else if hi.val < lo.val then none
    else
      match parseClass n rest with
      | some (rs, rest1) => some ((lo, hi) :: rs, rest1)
      | none => none
  | n + 1, c :: rest =>
    if c = '\\' ∨ c = '[' ∨ c = '-' then none
    else
      match parseClass n rest with
      | some (rs, rest1) => some ((c, c) :: rs, rest1)
      | none => none

/-- One optional postfix operator; a second one in a row is not in the fragment. -/
def parseRepeat (a : Regex) : List Char → Option (Regex × List Char)
  | op :: rest =>
    if op = '*' ∨ op = '+' ∨ op = '?' then
      match rest with
      | op2 :: _ =>
        if op2 = '*' ∨ op2 = '+' ∨ op2 = '?' ∨ op2 = '\x7b' then none
        else some (if op = '*' then .star a else if op = '+' then .plus a else .quest a, rest)
      | [] => some (if op = '*' then .star a else if op = '+' then .plus a else .quest a, rest)
    else if op = '\x7b' then none
    else some (a, op :: rest)
  | [] => some (a, [])

mutual
/-- Alternation: `cat ( '|' cat )*`. -/
def parseAlt : Nat → List Char → Option (Regex × List Char)
  | 0, _ => none
  | n + 1, cs =>
    match parseCat n cs with
    | none => none
    | some (a, '|' :: rest) =>
      match parseAlt n rest with
      | some (b, rest1) => some (.alt a b, rest1)
      | none => none
    | some (a, rest) => some (a, rest)
/-- Concatenation: a possibly empty sequence of repeated atoms. -/
def parseCat : Nat → List Char → Option (Regex × List Char)
  | 0, _ => none
  | _ + 1, [] => some (.empty, [])
  | _ + 1, '|' :: rest => some (.empty, '|' :: rest)
  | _ + 1, ')' :: rest => some (.empty, ')' :: rest)
  | n + 1, c :: rest =>
    match parseAtom n (c :: rest) with
    | none => none
    | some (a, rest1) =>
      match parseRepeat a rest1 with
      | none => none
      | some (a1, rest2) =>
        match parseCat n rest2 with
        | some (.empty, rest3) => some (a1, rest3)
        | some (b, rest3) => some (.cat a1 b, rest3)
        | none => none
/-- One atom. -/
def parseAtom : Nat → List Char → Option (Regex × List Char)
  | 0, _ => none
  | _ + 1, [] => none
  | n + 1, '(' :: rest =>
    match rest with
    | '?' :: _ => none
    | _ =>
      match parseAlt n rest with
      | some (a, ')' :: rest1) => some (a, rest1)
      | _ => none
  | n + 1, '[' :: '^' :: rest =>
    match parseClass n rest with
    | some ([], _) => none
    | some (rs, rest1) => some (.cls true rs, rest1)
    | none => none
  | n + 1, '[' :: rest =>
    match parseClass n rest with
    | some ([], _) => none
    | some (rs, rest1) => some (.cls false rs, rest1)
    | none => none
  | _ + 1, '\\' :: c :: rest => if isPunct c then some (.lit c, rest) else none
  | _ + 1, '.' :: rest => some (.any, rest)
  | _ + 1, '^' :: rest => some (.bol, rest)
  | _ + 1, '$' :: rest => some (.eol, rest)
  | _ + 1, c :: rest =>
    if c = '*' ∨ c = '+' ∨ c = '?' ∨ c = ')' ∨ c = '\\' ∨ c = '\x7b' ∨ c = '\x7d' ∨ c = ']' then none
    else some (.lit c, rest)
end

/-- Compile a pattern of the fragment. -/
def compile (pattern : String) : Option Regex :=
  match parseAlt (4 * pattern.data.length + 4) pattern.data with
  | some (re, []) => some re
  | _ => none

/-- The reference engine as a `RegexpLib`; the replacement text is inserted
literally (the program only passes the empty replacement). -/
def goRegexp : RegexpLib where
  Regexp := Regex
  Compile := compile
  ReplaceAllString := fun re src repl =>
    String.mk (replaceLoop re src.data repl.data (src.data.length + 2) 0 0 [])

/-! ## The value validator (`xml.go`, lines 120-153) -/

/-- Source `stringInSlice`. -/
def stringInSlice : List String → String → Bool
  | [], _ => false
  | b :: list, a => if b = a then true else stringInSlice list a

/-- Source `getValidatedValue`: the pair is the Go result `(string, error)`. -/
def getValidatedValue (L : RegexpLib) (rule key value : String) :
    Result (String × Option String) :=
  if rule = "" then .ok (value, none)
  else
    match rule.data with
    | [] => .panic
    | fc :: _ =>
      if fc = '/' then
        match L.MustCompile (Trim rule '/') with
        | .panic => .panic
        | .ok r =>
          if L.ReplaceAllString r value "" ≠ "" then
            .ok ("", some ("Invalid value " ++ value ++ " for key " ++ key))
          else .ok (value, none)
      else
        match Split rule '|' with
        | [] => .panic
        | p :: parts =>
          if !stringInSlice (p :: parts) value then .ok (p, none)
          else .ok (value, none)

/-! ## The data bag (package `objx`) -/

/-- A data bag, `objx.Map`, as the record of the four accessors the program
calls on it: `Has(path)`, `Get(path).String()`, `Get(path).ObjxMapSlice()` and
`Get(path).ObjxMap()` (`none` when the value at the path is not a record). -/
inductive Data where
  | mk (has : String → Bool) (str : String → String)
       (mapSlice : String → List Data) (map : String → Option Data)

namespace Data

/-- The nil `objx.Map`: no path is present. -/
def empty : Data :=
  .mk (fun _ => false) (fun _ => "") (fun _ => []) (fun _ => none)

/-- Go `data.Has(path)`. -/
def Has : Data → String → Bool
  | .mk has _ _ _, path => has path

/-- Go `data.Get(path).String()`. -/
def GetString : Data → String → String
  | .mk _ str _ _, path => str path

/-- Go `data.Get(path).ObjxMapSlice()`. -/
def GetObjxMapSlice : Data → String → List Data
  | .mk _ _ mapSlice _, path => mapSlice path

/-- Go `data.Get(path).ObjxMap()`: the nil map when there is no record at the path. -/
def GetObjxMap : Data → String → Data
  | .mk _ _ _ map, path =>
    match map path with
    | some record => record
    | none => empty

/-- A record whose fields are all strings, such as `{id: "1", name: "a"}`. -/
def ofStrings (fields : List (String × String)) : Data :=
  .mk (fun path => (fields.lookup path).isSome)
      (fun path => (fields.lookup path).getD "")
      (fun _ => []) (fun _ => none)

/-- A record with string fields and one field holding a list of records.  (The
text that `Get(path).String()` gives for the list itself is left empty; no
statement below reads it.) -/
def withSlice (fields : List (String × String)) (listPath : String) (records : List Data) :
    Data :=
  .mk (fun path => path = listPath || (fields.lookup path).isSome)
      (fun path => (fields.lookup path).getD "")
      (fun path => if path = listPath then records else [])
      (fun _ => none)

/-- A record with string fields and one field holding a record. -/
def withRecord (fields : List (String × String)) (recordPath : String) (record : Data) :
    Data :=
  .mk (fun path => path = recordPath || (fields.lookup path).isSome)
      (fun path => (fields.lookup path).getD "")
      (fun _ => [])
      (fun path => if path = recordPath then some record else none)

end Data

/-! ## The output tree (package `etree`) -/

/-- An element of the output tree: its name, its attributes and child elements
in the order of their creation, and its text.  Names are kept as passed. -/
inductive Element where
  | mk (Tag : String) (Attr : List (String × String)) (Text : String) (Child : List Element)

namespace Element

/-- A fresh element without attributes, text or children. -/
def new (tag : String) : Element := .mk tag [] "" []

/-- Name of the element. -/
def Tag : Element → String
  | .mk tag _ _ _ => tag

/-- Attributes of the element. -/
def Attr : Element → List (String × String)
  | .mk _ attr _ _ => attr

/-- Text of the element. -/
def Text : Element → String
  | .mk _ _ text _ => text

/-- Child elements. -/
def Child : Element → List Element
  | .mk _ _ _ child => child

/-- The parent after `parent.CreateElement(tag)` once the created child has
been filled in: the child is the last of the parent's children. -/
def addChild : Element → Element → Element
  | .mk tag attr text child, c => .mk tag attr text (child ++ [c])

/-- Attribute list after `CreateAttr(key, value)`: an attribute of that name is
overwritten, otherwise a new one is appended. -/
def setAttr : List (String × String) → String → String → List (String × String)
  | [], key, value => [(key, value)]
  | (k, v) :: attr, key, value =>
    if k = key then (k, value) :: attr else (k, v) :: setAttr attr key value

/-- Go `e.CreateAttr(key, value)`. -/
def CreateAttr : Element → String → String → Element
  | .mk tag attr text child, key, value => .mk tag (setAttr attr key value) text child

/-- Go `e.SetText(text)`. -/
def SetText : Element → String → Element
  | .mk tag attr _ child, text => .mk tag attr text child

end Element

/-! ## Schemas -/

/-- A schema value, the `interface{}` stored under a schema key: a rule string,
a nested `objx.Map`, or a value of any other Go type. -/
inductive SchemaValue where
  | str (rule : String)
  | map (schema : List (String × SchemaValue))
  | other

/-- A schema, `objx.Map`: its entries in iteration order. -/
abbrev Schema := List (String × SchemaValue)

/-- Source `XmlBuilder`. -/
structure XmlBuilder where
  BatchRootNode : String
  RootNode : String
  Schema : Schema
  ProcessData : Bool

/-! ## The schema walker (`xml.go`, lines 36-118) -/

/-- How lines 52-64 leave the loop body: with `continue` (the optional entry
is elided), with a panic (`key[0]` on an empty key), or with the key, its first
character and the rest, as the dispatch below them reads them. -/
inductive Directive where
  | skip
  | panic
  | entry (key : String) (fc : Char) (sKey : String)
deriving DecidableEq, Repr

/-- Lines 52-64 of `processSchema`. -/
def directive (key : String) (data : Data) : Directive :=
  match key.data with
  | [] => .panic
  | fc :: sKey =>
    if fc = '?' then
      if !data.Has (String.mk sKey) || data.GetString (String.mk sKey) = "" then .skip
      else
        match sKey with
        | [] => .panic
        | fc2 :: sKey2 => .entry (String.mk sKey) fc2 (String.mk sKey2)
    else .entry key fc (String.mk sKey)

/-- How one iteration of the loop of `processSchema` ends: it goes on to the
next entry, or leaves the loop by `break` with the function-level `err`, or
panics.  The element is the current output node after the iteration. -/
inductive Step where
  | next (root : Element)
  | stop (root : Element) (err : Option String)
  | panic

/-- Lines 79-82: one `item` child per record; the error a nested walk returns
is dropped. -/
def forSlices (walk : Data → Element → Result (Element × Option String)) (item : String) :
    List Data → Element → Result Element
  | [], rootElement => .ok rootElement
  | slice :: dataSlice, rootElement =>
    match walk slice (Element.new item) with
    | .panic => .panic
    | .ok (childRoot, _) => forSlices walk item dataSlice (rootElement.addChild childRoot)

mutual
/-- Source `processSchema`: the output node after the walk and the returned error. -/
def processSchema (L : RegexpLib) :
    Schema → Data → Element → Result (Element × Option String)
  | [], _, root => .ok (root, none)
  | (key, valueSchema) :: rest, data, root =>
    match loopBody L key valueSchema data root with
    | .next root1 => processSchema L rest data root1
    | .stop root1 err => .ok (root1, err)
    | .panic => .panic
/-- The body of the loop of `processSchema` (lines 52-114) for one entry. -/
def loopBody (L : RegexpLib) : String → SchemaValue → Data → Element → Step
  | key0, valueSchema, data, root =>
    match directive key0 data with
    | .skip => .next root
    | .panic => .panic
    | .entry key fc sKey =>
      match valueSchema with
      | .map mapSchema =>
        if fc = ':' then
          match Split sKey ':' with
          | [container, item] =>
            match forSlices (fun slice childRoot => processSchema L mapSchema slice childRoot)
                item (data.GetObjxMapSlice container) (Element.new container) with
            | .panic => .panic
            | .ok rootElement => .next (root.addChild rootElement)
          | _ => .stop root (some ("Key of map slice  " ++ key ++ " must contain 2 parts"))
        else
          match processSchema L mapSchema (data.GetObjxMap key) (Element.new key) with
          | .panic => .panic
          | .ok (rootElement, _) => .next (root.addChild rootElement)
      | .str strSchema =>
        if fc = '@' then
          match getValidatedValue L strSchema key (data.GetString key) with
          | .panic => .panic
          | .ok (_, some _) => .stop root none
          | .ok (value, none) => .next (root.CreateAttr sKey value)
        else
          match getValidatedValue L strSchema key (data.GetString key) with
          | .panic => .panic
          | .ok (_, some _) => .stop root none
          | .ok (value, none) => .next (root.addChild ((Element.new key).SetText value))
      | .other => .stop root (some ("Expects string schema for " ++ key))
end

/-- Source `Process`; `WriteToString` is the serializer of the finished document. -/
def Process (L : RegexpLib) (WriteToString : Element → String) (x : XmlBuilder) (data : Data) :
    Result (String × Option String) :=
  match processSchema L x.Schema data (Element.new x.RootNode) with
  | .panic => .panic
  | .ok (_, some err) => .ok ("", some err)
  | .ok (rootElement, none) => .ok (WriteToString rootElement, none)

/-! ## Auxiliary definitions used in the statements -/

mutual
/-- A plain serializer of the output tree (no indentation, no escaping), used
where a statement needs a concrete `WriteToString`. -/
def renderXml : Element → String
  | .mk tag attr text child =>
    "<" ++ tag ++ String.join (attr.map (fun a => " " ++ a.1 ++ "=\"" ++ a.2 ++ "\"")) ++ ">"
      ++ text ++ renderChildren child ++ "</" ++ tag ++ ">"
/-- Serialization of a list of sibling elements. -/
def renderChildren : List Element → String
  | [] => ""
  | e :: es => renderXml e ++ renderChildren es
end

/-- The loop of `processSchema` run over the entries `pre`, when every
iteration goes on to the next entry: the output node after them.  `none` when
an iteration leaves the loop (`break`) or panics. -/
def walkThrough (L : RegexpLib) : Schema → Data → Element → Option Element
  | [], _, root => some root
  | (key, valueSchema) :: pre, data, root =>
    match loopBody L key valueSchema data root with
    | .next root1 => walkThrough L pre data root1
    | _ => none

/-- The conditions of C8 on a schema key: it is not empty, it is not optional,
and an array key (prefix `:`) has exactly two segments. -/
def plainKey (key : String) : Bool :=
  match key.data with
  | [] => false
  | fc :: sKey =>
    if fc = '?' then false
    else if fc = ':' then decide ((Split (String.mk sKey) ':').length = 2)
    else true

mutual
/-- The conditions of C8 on a schema, at every depth: every key satisfies
`plainKey`, every rule string is empty, every value is a rule string or a
nested schema. -/
def plainSchema : Schema → Bool
  | [] => true
  | (key, valueSchema) :: rest => plainKey key && plainValue valueSchema && plainSchema rest
/-- The conditions of C8 on a schema value. -/
def plainValue : SchemaValue → Bool
  | .str rule => decide (rule = "")
  | .map schema => plainSchema schema
  | .other => false
end

/-- The residual of a schema key: the key without one leading `?`. -/
def residualKey (key : String) : String :=
  match key.data with
  | '?' :: rest => String.mk rest
  | _ => key

/-- The condition of C15 on a top-level entry: the value is a rule string or a
nested schema, and a key with a nested schema that has the array form (prefix
`:`, directly or after `?`) has exactly two segments. -/
def soundEntry (key : String) (valueSchema : SchemaValue) : Bool :=
  match valueSchema with
  | .str _ => true
  | .map _ =>
    match (residualKey key).data with
    | ':' :: sKey => decide ((Split (String.mk sKey) ':').length = 2)
    | _ => true
  | .other => false

/-- The condition of C15 on the top-level entries of a schema. -/
def soundTopLevel (schema : Schema) : Bool :=
  schema.all (fun entry => soundEntry entry.1 entry.2)

mutual
/-- No walk of the schema can panic: at every depth no key is empty or a bare
`?`, and the pattern of every regex rule compiles. -/
def guardedSchema (L : RegexpLib) : Schema → Bool
  | [] => true
  | (key, valueSchema) :: rest =>
    decide (key ≠ "") && decide (key ≠ "?") && guardedValue L valueSchema
      && guardedSchema L rest
/-- The condition of `guardedSchema` on a schema value. -/
def guardedValue (L : RegexpLib) : SchemaValue → Bool
  | .str rule =>
    match rule.data with
    | '/' :: _ => (L.Compile (Trim rule '/')).isSome
    | _ => true
  | .map schema => guardedSchema L schema
  | .other => true
end

mutual
/-- Two iteration orders of the same schema: the entries of the second schema
are those of the first in another order, and so, level by level, for the
nested schemas. -/
inductive SchemaPerm : Schema → Schema → Prop
  | nil : SchemaPerm [] []
  | cons (key : String) {v w : SchemaValue} {S T : Schema} :
    ValuePerm v w → SchemaPerm S T → SchemaPerm ((key, v) :: S) ((key, w) :: T)
  | swap (key1 key2 : String) {v1 w1 v2 w2 : SchemaValue} {S T : Schema} :
    ValuePerm v1 w1 → ValuePerm v2 w2 → SchemaPerm S T →
    SchemaPerm ((key1, v1) :: (key2, v2) :: S) ((key2, w2) :: (key1, w1) :: T)
  | trans {S T U : Schema} : SchemaPerm S T → SchemaPerm T U → SchemaPerm S U
/-- The same schema value up to the iteration order of nested schemas. -/
inductive ValuePerm : SchemaValue → SchemaValue → Prop
  | str (rule : String) : ValuePerm (.str rule) (.str rule)
  | map {S T : Schema} : SchemaPerm S T → ValuePerm (.map S) (.map T)
  | other : ValuePerm .other .other
end

mutual
/-- Two output trees with the same elements, attributes and texts, differing at
most in the order of siblings (attributes of one element, children of one
element). -/
inductive SameTree : Element → Element → Prop
  | mk (tag text : String) {attr1 attr2 : List (String × String)}
    {child1 child2 : List Element} :
    attr1.Perm attr2 → SameForest child1 child2 →
    SameTree (.mk tag attr1 text child1) (.mk tag attr2 text child2)
/-- Two lists of sibling elements that agree up to their order and up to
`SameTree`. -/
inductive SameForest : List Element → List Element → Prop
  | nil : SameForest [] []
  | cons {e f : Element} {c d : List Element} :
    SameTree e f → SameForest c d → SameForest (e :: c) (f :: d)
  | swap (e f : Element) (c : List Element) : SameForest (e :: f :: c) (f :: e :: c)
  | trans {c d g : List Element} : SameForest c d → SameForest d g → SameForest c g
end

mutual
/-- Every walk of the schema against the data bag, the top-level one and the
nested ones, goes through all of its entries: no iteration is ended by a failed
validation, a structural error or a panic. -/
def quietSchema (L : RegexpLib) : Schema → Data → Bool
  | [], _ => true
  | (key, valueSchema) :: rest, data =>
    quietEntry L key valueSchema data && quietSchema L rest data
/-- The iteration for one entry goes on, and so does every nested walk it starts. -/
def quietEntry (L : RegexpLib) : String → SchemaValue → Data → Bool
  | key0, valueSchema, data =>
    match directive key0 data with
    | .skip => true
    | .panic => false
    | .entry key fc sKey =>
      match valueSchema with
      | .map mapSchema =>
        if fc = ':' then
          match Split sKey ':' with
          | [container, _] =>
            (data.GetObjxMapSlice container).all (fun slice => quietSchema L mapSchema slice)
          | _ => false
        else quietSchema L mapSchema (data.GetObjxMap key)
      | .str strSchema =>
        match getValidatedValue L strSchema key (data.GetString key) with
        | .ok (_, none) => true
        | _ => false
      | .other => false
end

/-- The iteration for one top-level entry ends with a structural error: the
entry is not elided and its value is neither a rule string nor a nested schema,
or it is a nested schema under an array key without exactly two segments. -/
def faultyEntry (key0 : String) (valueSchema : SchemaValue) (data : Data) : Bool :=
  match directive key0 data with
  | .entry _ fc sKey =>
    match valueSchema with
    | .map _ => decide (fc = ':') && decide ((Split sKey ':').length ≠ 2)
    | .str _ => false
    | .other => true
  | _ => false

/-- No walk is ended by a failed validation or a panic, and no nested walk by a
structural error: every top-level entry is quiet or structurally faulty. -/
def steadySchema (L : RegexpLib) (schema : Schema) (data : Data) : Bool :=
  schema.all (fun entry => quietEntry L entry.1 entry.2 data || faultyEntry entry.1 entry.2 data)

/-- The attribute a schema key names: the residual key without its `@`. -/
def attrName (key : String) : Option String :=
  match (residualKey key).data with
  | '@' :: name => some (String.mk name)
  | _ => none

/-- The attributes named by the keys of one schema level. -/
def attrNames (schema : Schema) : List String :=
  schema.filterMap (fun entry => attrName entry.1)

mutual
/-- In every nested schema, no two keys of one level name the same attribute. -/
def distinctAttrsBelow : Schema → Bool
  | [] => true
  | (_, valueSchema) :: rest => distinctAttrsValue valueSchema && distinctAttrsBelow rest
/-- The condition of `distinctAttrsBelow` for one schema value. -/
def distinctAttrsValue : SchemaValue → Bool
  | .map schema => decide (attrNames schema).Nodup && distinctAttrsBelow schema
  | _ => true
end

/-- At every level of the schema, no two keys name the same attribute (as `@id`
and `?@id` would). -/
def distinctAttrs (schema : Schema) : Bool :=
  decide (attrNames schema).Nodup && distinctAttrsBelow schema

/-- What an iteration that goes on does to the current output node. -/
inductive Effect where
  | skip
  | child (c : Element)
  | attr (name value : String)

/-- The output node after the effect. -/
def Effect.apply : Effect → Element → Element
  | .skip, root => root
  | .child c, root => root.addChild c
  | .attr name value, root => root.CreateAttr name value

/-- The same effect up to the order of siblings inside a created child. -/
def Effect.Same : Effect → Effect → Prop
  | .skip, .skip => True
  | .child c, .child d => SameTree c d
  | .attr name value, .attr name2 value2 => name = name2 ∧ value = value2
  | _, _ => False

/-- The attribute names of an element. -/
def Element.attrKeys (e : Element) : List String :=
  e.Attr.map Prod.fst

/-- The keys of the schema name pairwise distinct attributes, none of which the
element has yet. -/
def Fresh (schema : Schema) (root : Element) : Prop :=
  (attrNames schema).Nodup ∧ ∀ name ∈ attrNames schema, name ∉ root.attrKeys

/-- The walks of two schemas agree: the keys name the same attributes, and when
the first schema is quiet on a data bag so is the second, and from output nodes
that are the same up to the order of siblings they lead to output nodes that are
the same up to the order of siblings. -/
def WalkAgree (L : RegexpLib) (S T : Schema) : Prop :=
  (attrNames S).Perm (attrNames T) ∧
  (distinctAttrsBelow S = true → distinctAttrsBelow T = true) ∧
  ∀ data, quietSchema L S data = true → distinctAttrsBelow S = true →
    quietSchema L T data = true ∧
    ∀ r1 r2, SameTree r1 r2 → Fresh S r1 →
      ∃ t1 t2, walkThrough L S data r1 = some t1 ∧ walkThrough L T data r2 = some t2 ∧
        SameTree t1 t2

/-- The iterations for one key with two schema values agree: when the first is
quiet so is the second, and their effects on the output node are the same. -/
def EntryAgree (L : RegexpLib) (v w : SchemaValue) : Prop :=
  (distinctAttrsValue v = true → distinctAttrsValue w = true) ∧
  ∀ key data, quietEntry L key v data = true → distinctAttrsValue v = true →
    quietEntry L key w data = true ∧
    ∃ e1 e2, (∀ root, loopBody L key v data root = .next (e1.apply root)) ∧
      (∀ root, loopBody L key w data root = .next (e2.apply root)) ∧
      Effect.Same e1 e2 ∧ (∀ name value, e1 = .attr name value → attrName key = some name)

/-! ## Lemmas on strings -/

theorem data_cons_append (c : Char) (s : String) : (String.mk [c] ++ s).data = c :: s.data := by
  cases s; rfl

theorem mk_data (s : String) : String.mk s.data = s := by
  cases s; rfl

theorem data_nil_iff (s : String) : s.data = [] ↔ s = "" := by
  cases s with
  | mk cs => exact ⟨fun h => congrArg String.mk h, fun h => congrArg String.data h⟩

theorem splitChars_ne_nil (sep : Char) (cs : List Char) : splitChars sep cs ≠ [] := by
  induction cs with
  | nil => simp [splitChars]
  | cons c cs ih =>
    unfold splitChars
    split
    · simp
    · split <;> simp

theorem Split_ne_nil (s : String) (sep : Char) : Split s sep ≠ [] := by
  unfold Split
  simpa using splitChars_ne_nil sep s.data

theorem stringInSlice_iff (list : List String) (a : String) :
    stringInSlice list a = true ↔ a ∈ list := by
  induction list with
  | nil => simp [stringInSlice]
  | cons b list ih =>
    unfold stringInSlice
    by_cases h : b = a
    · simp [h]
    · have h2 : ¬ a = b := fun e => h e.symm
      simp [h, h2, ih]

/-! ## The value validator -/

/-- C2. Enumeration rule: for a non-empty rule that does not begin with `/`,
`getValidatedValue` returns no error; the rule splits on `|` into a first
alternative and the rest, and the value returned is the candidate when it is one
of the alternatives and the first alternative otherwise. -/
theorem C2_enumeration (L : RegexpLib) (rule key value : String)
    (hne : rule ≠ "") (hfc : rule.data.head? ≠ some '/') :
    ∃ first rest, Split rule '|' = first :: rest ∧
      getValidatedValue L rule key value =
        .ok (if value ∈ first :: rest then value else first, none) := by
  unfold getValidatedValue
  rw [if_neg hne]
  cases hd : rule.data with
  | nil => exact absurd ((data_nil_iff rule).1 hd) hne
  | cons fc tl =>
    have hfc1 : fc ≠ '/' := by
      intro h
      apply hfc
      simp [hd, h]
    simp only [if_neg hfc1]
    cases hs : Split rule '|' with
    | nil => exact absurd hs (Split_ne_nil rule '|')
    | cons p parts =>
      refine ⟨p, parts, rfl, ?_⟩
      by_cases hm : value ∈ p :: parts
      · have hin : stringInSlice (p :: parts) value = true := (stringInSlice_iff _ _).2 hm
        simp only [hin, if_pos hm]
        rfl
      · have hin : stringInSlice (p :: parts) value = false := by
          cases hb : stringInSlice (p :: parts) value with
          | false => rfl
          | true => exact absurd ((stringInSlice_iff _ _).1 hb) hm
        simp only [hin, if_neg hm]
        rfl

/-- Witness of C2 at the rule `red|green|blue`: `green` is kept, `purple` is
replaced by `red`. -/
theorem C2_enumeration_witness :
    ("red|green|blue" ≠ "" ∧ "red|green|blue".data.head? ≠ some '/') ∧
    (∃ first rest, Split "red|green|blue" '|' = first :: rest ∧
      getValidatedValue goRegexp "red|green|blue" "colour" "purple" =
        .ok (if "purple" ∈ first :: rest then "purple" else first, none)) ∧
    getValidatedValue goRegexp "red|green|blue" "colour" "green" = .ok ("green", none) ∧
    getValidatedValue goRegexp "red|green|blue" "colour" "purple" = .ok ("red", none) :=
  ⟨⟨by decide, by decide⟩,
   C2_enumeration goRegexp "red|green|blue" "colour" "purple" (by decide) (by decide),
   by decide, by decide⟩

/-- A rule that begins with `/` and whose trimmed pattern compiles to `r`: the
candidate is returned when deleting all matches leaves nothing, and the error
"Invalid value .. for key .." is returned otherwise. -/
theorem getValidatedValue_regex (L : RegexpLib) (rule key value : String) (r : L.Regexp)
    (hfc : rule.data.head? = some '/') (hc : L.Compile (Trim rule '/') = some r) :
    getValidatedValue L rule key value =
      if L.ReplaceAllString r value "" = "" then .ok (value, none)
      else .ok ("", some ("Invalid value " ++ value ++ " for key " ++ key)) := by
  unfold getValidatedValue
  cases hd : rule.data with
  | nil => simp [hd] at hfc
  | cons fc tl =>
    have hne : rule ≠ "" := by
      intro h
      rw [h] at hd
      exact List.noConfusion hd
    have hfc1 : fc = '/' := by simpa [hd] using hfc
    rw [if_neg hne]
    simp only [hfc1, if_true, RegexpLib.MustCompile, hc]
    by_cases hr : L.ReplaceAllString r value "" = ""
    · simp [hr]
    · simp [hr]

/-- C3. Regex rule: for a rule that begins with `/` and whose pattern (the rule
without its delimiters) compiles, `getValidatedValue` returns the candidate with
no error when deleting every match of the pattern from the candidate leaves the
empty string, and otherwise returns the empty string with the error
"Invalid value <value> for key <key>". -/
theorem C3_regex_rule (L : RegexpLib) (rule key value : String) (r : L.Regexp)
    (hfc : rule.data.head? = some '/') (hc : L.Compile (Trim rule '/') = some r) :
    getValidatedValue L rule key value =
      if L.ReplaceAllString r value "" = "" then .ok (value, none)
      else .ok ("", some ("Invalid value " ++ value ++ " for key " ++ key)) :=
  getValidatedValue_regex L rule key value r hfc hc

/-- Witness of C3 at the rule `/^[0-9]+$/`: `42` is returned unchanged, `4a`
gives the error naming the value and the key. -/
theorem C3_regex_rule_witness :
    ("/^[0-9]+$/".data.head? = some '/' ∧
      compile (Trim "/^[0-9]+$/" '/')
        = some (.cat .bol (.cat (.plus (.cls false [('0', '9')])) .eol))) ∧
    (getValidatedValue goRegexp "/^[0-9]+$/" "n" "4a" =
      if goRegexp.ReplaceAllString
          (Regex.cat .bol (.cat (.plus (.cls false [('0', '9')])) .eol)) "4a" "" = ""
      then .ok ("4a", none)
      else .ok ("", some ("Invalid value " ++ "4a" ++ " for key " ++ "n"))) ∧
    getValidatedValue goRegexp "/^[0-9]+$/" "n" "42" = .ok ("42", none) ∧
    getValidatedValue goRegexp "/^[0-9]+$/" "n" "4a"
      = .ok ("", some "Invalid value 4a for key n") :=
  ⟨⟨by decide, by decide⟩,
   C3_regex_rule goRegexp "/^[0-9]+$/" "n" "4a"
     (Regex.cat .bol (.cat (.plus (.cls false [('0', '9')])) .eol)) (by decide) (by rfl),
   by decide, by decide⟩

/-- C4, as stated, fails.  With the pattern `[0-9]` the value `42` is accepted
although the pattern matches it only digit by digit; with `^[0-9]+$` the empty
value is accepted although the pattern does not match the empty string; with
`a|ab` the value `ab` is rejected although the pattern matches the whole of it. -/
theorem C4_counterexample :
    (compile (Trim "/[0-9]/" '/') = some (.cls false [('0', '9')]) ∧
      getValidatedValue goRegexp "/[0-9]/" "n" "42" = .ok ("42", none) ∧
      Regex.fullMatch (.cls false [('0', '9')]) "42" = false) ∧
    (compile (Trim "/^[0-9]+$/" '/')
        = some (.cat .bol (.cat (.plus (.cls false [('0', '9')])) .eol)) ∧
      getValidatedValue goRegexp "/^[0-9]+$/" "n" "" = .ok ("", none) ∧
      Regex.fullMatch (.cat .bol (.cat (.plus (.cls false [('0', '9')])) .eol)) "" = false) ∧
    (compile (Trim "/a|ab/" '/') = some (.alt (.lit 'a') (.cat (.lit 'a') (.lit 'b'))) ∧
      getValidatedValue goRegexp "/a|ab/" "n" "ab"
        = .ok ("", some "Invalid value ab for key n") ∧
      Regex.fullMatch (.alt (.lit 'a') (.cat (.lit 'a') (.lit 'b'))) "ab" = true) := by
  decide

/-- C4, amended. For a regex rule whose pattern compiles, `getValidatedValue`
accepts the candidate (returns it without error) if and only if deleting every
match of the pattern from the candidate leaves the empty string; otherwise the
candidate is rejected with an error. -/
theorem C4_accepted_iff_matches_deleted (L : RegexpLib) (rule key value : String)
    (r : L.Regexp) (hfc : rule.data.head? = some '/')
    (hc : L.Compile (Trim rule '/') = some r) :
    (getValidatedValue L rule key value = .ok (value, none)
      ↔ L.ReplaceAllString r value "" = "") ∧
    (L.ReplaceAllString r value "" ≠ "" →
      ∃ msg, getValidatedValue L rule key value = .ok ("", some msg)) := by
  have h := getValidatedValue_regex L rule key value r hfc hc
  by_cases hr : L.ReplaceAllString r value "" = ""
  · rw [if_pos hr] at h
    exact ⟨⟨fun _ => hr, fun _ => h⟩, fun hn => absurd hr hn⟩
  · rw [if_neg hr] at h
    refine ⟨⟨fun ha => ?_, fun he => absurd he hr⟩, fun _ => ⟨_, h⟩⟩
    rw [h] at ha
    injection ha with ha1
    injection ha1 with _ ha2
    exact Option.noConfusion ha2

/-- Witness of the amended C4 at the rule `/[0-9]/` and the value `42`. -/
theorem C4_accepted_iff_matches_deleted_witness :
    ("/[0-9]/".data.head? = some '/' ∧
      compile (Trim "/[0-9]/" '/') = some (.cls false [('0', '9')])) ∧
    ((getValidatedValue goRegexp "/[0-9]/" "n" "42" = .ok ("42", none)
      ↔ goRegexp.ReplaceAllString (Regex.cls false [('0', '9')]) "42" "" = "") ∧
    (goRegexp.ReplaceAllString (Regex.cls false [('0', '9')]) "42" "" ≠ "" →
      ∃ msg, getValidatedValue goRegexp "/[0-9]/" "n" "42" = .ok ("", some msg))) :=
  ⟨⟨by decide, by decide⟩,
   C4_accepted_iff_matches_deleted goRegexp "/[0-9]/" "n" "42"
     (Regex.cls false [('0', '9')]) (by decide) (by rfl)⟩

/-! ## The loop body: key decoding -/

theorem directive_plain (key : String) (data : Data) (fc : Char) (sKey : List Char)
    (hd : key.data = fc :: sKey) (hq : fc ≠ '?') :
    directive key data = .entry key fc (String.mk sKey) := by
  unfold directive
  rw [hd]
  simp [hq]

theorem directive_optional_skip (name : String) (data : Data)
    (h : data.Has name = false ∨ data.GetString name = "") :
    directive ("?" ++ name) data = .skip := by
  have hd : ("?" ++ name).data = '?' :: name.data := data_cons_append '?' name
  unfold directive
  rw [hd]
  simp only [mk_data, if_true]
  rcases h with h | h
  · simp [h]
  · simp [h]

theorem directive_optional_entry (name : String) (data : Data) (fc : Char) (sKey : List Char)
    (hn : name.data = fc :: sKey)
    (h : ¬ (data.Has name = false ∨ data.GetString name = "")) :
    directive ("?" ++ name) data = .entry name fc (String.mk sKey) := by
  have hd : ("?" ++ name).data = '?' :: name.data := data_cons_append '?' name
  have h1 : data.Has name = true := by
    cases hb : data.Has name with
    | true => rfl
    | false => exact absurd (Or.inl hb) h
  have h2 : ¬ data.GetString name = "" := fun e => h (Or.inr e)
  unfold directive
  rw [hd]
  simp only [mk_data, if_true]
  simp [h1, h2, hn]

theorem loopBody_congr (L : RegexpLib) (k1 k2 : String) (v : SchemaValue) (data : Data)
    (root : Element) (h : directive k1 data = directive k2 data) :
    loopBody L k1 v data root = loopBody L k2 v data root := by
  rw [loopBody, loopBody, h]

theorem loopBody_skip (L : RegexpLib) (key : String) (v : SchemaValue) (data : Data)
    (root : Element) (h : directive key data = .skip) :
    loopBody L key v data root = .next root := by
  rw [loopBody, h]

/-- An optional key whose residual key does not itself begin with `?`: when the
entry is not elided, the body runs as for the residual key alone. -/
theorem loopBody_optional_entry (L : RegexpLib) (name : String) (v : SchemaValue)
    (data : Data) (root : Element) (fc : Char) (sKey : List Char)
    (hn : name.data = fc :: sKey) (hq : fc ≠ '?')
    (h : ¬ (data.Has name = false ∨ data.GetString name = "")) :
    loopBody L ("?" ++ name) v data root = loopBody L name v data root := by
  apply loopBody_congr
  rw [directive_optional_entry name data fc sKey hn h, directive_plain name data fc sKey hn hq]

/-! ## Optional entries -/

/-- C6. Optional elision: for a key `?name` with any schema value, when the data
path `name` is absent or resolves to the empty string, the loop body leaves the
output node as it is (no element, no attribute), raises no error, and the walk
goes on with the remaining entries. -/
theorem C6_optional_elided (L : RegexpLib) (name : String) (v : SchemaValue) (rest : Schema)
    (data : Data) (root : Element)
    (h : data.Has name = false ∨ data.GetString name = "") :
    loopBody L ("?" ++ name) v data root = .next root ∧
    processSchema L (("?" ++ name, v) :: rest) data root = processSchema L rest data root := by
  have hb : loopBody L ("?" ++ name) v data root = .next root :=
    loopBody_skip L _ v data root (directive_optional_skip name data h)
  refine ⟨hb, ?_⟩
  rw [processSchema, hb]

/-- Witness of C6: `?price` with a rule no value could pass, against a bag
without `price`; the following entry is still processed. -/
theorem C6_optional_elided_witness :
    ((Data.ofStrings [("name", "a")]).Has "price" = false ∨
      (Data.ofStrings [("name", "a")]).GetString "price" = "") ∧
    (loopBody goRegexp ("?" ++ "price") (.str "/^[0-9]+$/")
        (Data.ofStrings [("name", "a")]) (Element.new "root") = .next (Element.new "root") ∧
      processSchema goRegexp [("?" ++ "price", .str "/^[0-9]+$/"), ("name", .str "")]
          (Data.ofStrings [("name", "a")]) (Element.new "root")
        = processSchema goRegexp [("name", .str "")]
          (Data.ofStrings [("name", "a")]) (Element.new "root")) :=
  ⟨Or.inl (by decide),
   C6_optional_elided goRegexp "price" (.str "/^[0-9]+$/") [("name", .str "")]
     (Data.ofStrings [("name", "a")]) (Element.new "root") (Or.inl (by decide))⟩

/-! ## Attributes -/

theorem lookup_setAttr (attr : List (String × String)) (key value : String) :
    (Element.setAttr attr key value).lookup key = some value := by
  induction attr with
  | nil => simp [Element.setAttr, List.lookup]
  | cons a attr ih =>
    obtain ⟨k, v⟩ := a
    unfold Element.setAttr
    by_cases hk : k = key
    · simp [hk, List.lookup]
    · have hk2 : (key == k) = false := by
        simp only [beq_eq_false_iff_ne, ne_eq]
        exact fun e => hk e.symm
      simp [hk, List.lookup, hk2, ih]

theorem loopBody_attr (L : RegexpLib) (key0 key sKey rule : String) (data : Data)
    (root : Element) (h : directive key0 data = .entry key '@' sKey) :
    loopBody L key0 (.str rule) data root =
      match getValidatedValue L rule key (data.GetString key) with
      | .panic => .panic
      | .ok (_, some _) => .stop root none
      | .ok (value, none) => .next (root.CreateAttr sKey value) := by
  rw [loopBody, h]
  simp

/-- C9, as stated, fails. With the rule `""` and the data `{id: "1"}` the
validator accepts the string `1` stored at the path `id`, but the entry `@id`
writes the attribute `id` with the empty value: the value is read at the path
`@id`, which the bag does not have. -/
theorem C9_counterexample :
    (Data.ofStrings [("id", "1")]).GetString "id" = "1" ∧
    getValidatedValue goRegexp "" "@id" "1" = .ok ("1", none) ∧
    loopBody goRegexp "@id" (.str "") (Data.ofStrings [("id", "1")]) (Element.new "root")
      = .next (Element.mk "root" [("id", "")] "" []) :=
  ⟨by decide, by decide, rfl⟩

/-- C9, amended. For a key `@name` with a rule string `r`: the whole key
`@name` is the data path and the residual `name` the attribute name. When
`getValidatedValue` accepts the string stored at the path `@name` and yields
`v`, the loop body writes the attribute `name` with the value `v` on the current
output node and leaves the node's children as they were. -/
theorem C9_attribute (L : RegexpLib) (name r v : String) (data : Data) (root : Element)
    (h : getValidatedValue L r ("@" ++ name) (data.GetString ("@" ++ name)) = .ok (v, none)) :
    loopBody L ("@" ++ name) (.str r) data root = .next (root.CreateAttr name v) ∧
    (root.CreateAttr name v).Attr.lookup name = some v ∧
    (root.CreateAttr name v).Child = root.Child ∧
    (root.CreateAttr name v).Tag = root.Tag ∧
    (root.CreateAttr name v).Text = root.Text := by
  have hd : ("@" ++ name).data = '@' :: name.data := data_cons_append '@' name
  have hdir : directive ("@" ++ name) data = .entry ("@" ++ name) '@' name := by
    rw [directive_plain ("@" ++ name) data '@' name.data hd (by decide), mk_data]
  refine ⟨?_, ?_, ?_, ?_, ?_⟩
  · rw [loopBody_attr L _ _ _ r data root hdir, h]
  · cases root with
    | mk tag attr text child => exact lookup_setAttr attr name v
  · cases root; rfl
  · cases root; rfl
  · cases root; rfl

/-- Witness of the amended C9: rule `""`, data `{"@id": "1"}`, key `@id` gives
the attribute `id="1"`. -/
theorem C9_attribute_witness :
    getValidatedValue goRegexp "" ("@" ++ "id")
        ((Data.ofStrings [("@id", "1")]).GetString ("@" ++ "id")) = .ok ("1", none) ∧
    (loopBody goRegexp ("@" ++ "id") (.str "") (Data.ofStrings [("@id", "1")])
        (Element.new "root") = .next ((Element.new "root").CreateAttr "id" "1") ∧
      ((Element.new "root").CreateAttr "id" "1").Attr.lookup "id" = some "1" ∧
      ((Element.new "root").CreateAttr "id" "1").Child = (Element.new "root").Child ∧
      ((Element.new "root").CreateAttr "id" "1").Tag = (Element.new "root").Tag ∧
      ((Element.new "root").CreateAttr "id" "1").Text = (Element.new "root").Text) :=
  ⟨by decide,
   C9_attribute goRegexp "id" "" "1" (Data.ofStrings [("@id", "1")]) (Element.new "root")
     (by decide)⟩

/-! ## Optional stacked on another directive -/

/-- C10, as stated, fails. The key `?:items:item` against a bag whose list at
`items` holds one record is elided, while `:items:item` alone produces the
`items` element with one `item`; and the key `?@id` against `{id: "1"}` is
elided although the path `id` is present and not empty. -/
theorem C10_counterexample :
    ((Data.withSlice [] "items" [Data.ofStrings [("name", "a")]]).GetObjxMapSlice
        "items").length = 1 ∧
    loopBody goRegexp "?:items:item" (.map [("name", .str "")])
        (Data.withSlice [] "items" [Data.ofStrings [("name", "a")]]) (Element.new "root")
      = .next (Element.new "root") ∧
    loopBody goRegexp ":items:item" (.map [("name", .str "")])
        (Data.withSlice [] "items" [Data.ofStrings [("name", "a")]]) (Element.new "root")
      = .next (Element.mk "root" [] ""
          [Element.mk "items" [] "" [Element.mk "item" [] "" [Element.mk "name" [] "a" []]]]) ∧
    (Data.ofStrings [("id", "1")]).Has "id" = true ∧
    (Data.ofStrings [("id", "1")]).GetString "id" = "1" ∧
    loopBody goRegexp "?@id" (.str "") (Data.ofStrings [("id", "1")]) (Element.new "root")
      = .next (Element.new "root") :=
  ⟨by decide, rfl, rfl, by decide, by decide, rfl⟩

/-- C10, amended. For a key `?@name`: the entry is elided when the data path
`@name` (the whole residual key, which is the path the attribute entry itself
reads) is absent or resolves to the empty string, and is otherwise processed
exactly as the key `@name` alone. For a key `?:container:item`: an entry that is
not elided is processed exactly as the key `:container:item` alone. -/
theorem C10_optional_stacking (L : RegexpLib) (v : SchemaValue) (data : Data)
    (root : Element) :
    (∀ name : String,
      ((data.Has ("@" ++ name) = false ∨ data.GetString ("@" ++ name) = "") →
        loopBody L ("?" ++ ("@" ++ name)) v data root = .next root) ∧
      (¬ (data.Has ("@" ++ name) = false ∨ data.GetString ("@" ++ name) = "") →
        loopBody L ("?" ++ ("@" ++ name)) v data root
          = loopBody L ("@" ++ name) v data root)) ∧
    (∀ container item : String,
      loopBody L ("?" ++ (":" ++ container ++ ":" ++ item)) v data root ≠ .next root →
        loopBody L ("?" ++ (":" ++ container ++ ":" ++ item)) v data root
          = loopBody L (":" ++ container ++ ":" ++ item) v data root) := by
  refine ⟨fun name => ⟨fun h => ?_, fun h => ?_⟩, fun container item hne => ?_⟩
  · exact loopBody_skip L _ v data root (directive_optional_skip _ data h)
  · exact loopBody_optional_entry L ("@" ++ name) v data root '@' name.data
      (data_cons_append '@' name) (by decide) h
  · have hd : (":" ++ container ++ ":" ++ item).data
        = ':' :: (container.data ++ ':' :: item.data) := by
      simp [String.data_append]
    by_cases h : data.Has (":" ++ container ++ ":" ++ item) = false ∨
        data.GetString (":" ++ container ++ ":" ++ item) = ""
    · exact absurd (loopBody_skip L _ v data root (directive_optional_skip _ data h)) hne
    · exact loopBody_optional_entry L _ v data root ':' _ hd (by decide) h

/-! ## Arrays of records -/

theorem splitChars_not_mem (sep : Char) (cs : List Char) (h : sep ∉ cs) :
    splitChars sep cs = [cs] := by
  induction cs with
  | nil => rfl
  | cons c cs ih =>
    have hc : c ≠ sep := fun e => h (by simp [e])
    have hcs : sep ∉ cs := fun m => h (List.mem_cons_of_mem _ m)
    rw [splitChars, if_neg hc, ih hcs]

theorem splitChars_append (sep : Char) (a b : List Char) (h : sep ∉ a) :
    splitChars sep (a ++ sep :: b) = a :: splitChars sep b := by
  induction a with
  | nil => simp [splitChars]
  | cons c a ih =>
    have hc : c ≠ sep := fun e => h (by simp [e])
    have ha : sep ∉ a := fun m => h (List.mem_cons_of_mem _ m)
    rw [List.cons_append, splitChars, if_neg hc, ih ha]

theorem Split_two (container item : String)
    (hc : ':' ∉ container.data) (hi : ':' ∉ item.data) :
    Split (String.mk (container.data ++ ':' :: item.data)) ':' = [container, item] := by
  unfold Split
  simp only [splitChars_append ':' _ _ hc, splitChars_not_mem ':' _ hi, List.map, mk_data]

theorem forSlices_ok (walk : Data → Element → Result (Element × Option String))
    (item : String) (dataSlice : List Data) (children : List Element)
    (h : List.Forall₂ (fun record child =>
        ∃ err, walk record (Element.new item) = .ok (child, err)) dataSlice children)
    (tag : String) (attr : List (String × String)) (text : String) (child : List Element) :
    forSlices walk item dataSlice (Element.mk tag attr text child)
      = .ok (Element.mk tag attr text (child ++ children)) := by
  induction h generalizing child with
  | nil => simp [forSlices]
  | cons hhead _ ih =>
    obtain ⟨err, he⟩ := hhead
    rw [forSlices, he]
    simp only [Element.addChild]
    rw [ih]
    simp

/-- What an iteration can do to the current output node. -/
theorem loopBody_shape (L : RegexpLib) (key : String) (v : SchemaValue) (data : Data)
    (root : Element) :
    loopBody L key v data root = .panic ∨
    (∃ err, loopBody L key v data root = .stop root err) ∨
    loopBody L key v data root = .next root ∨
    (∃ c, loopBody L key v data root = .next (root.addChild c)) ∨
    (∃ a b, loopBody L key v data root = .next (root.CreateAttr a b)) := by
  rw [loopBody]
  split
  · simp
  · simp
  · split
    · split
      · split
        · split <;> simp
        · simp
      · split <;> simp
    · split
      · split <;> simp
      · split <;> simp
    · simp



theorem tag_addChild (root c : Element) : (root.addChild c).Tag = root.Tag := by
  cases root; rfl

theorem tag_CreateAttr (root : Element) (a b : String) : (root.CreateAttr a b).Tag = root.Tag := by
  cases root; rfl

theorem loopBody_tag (L : RegexpLib) (key : String) (v : SchemaValue) (data : Data)
    (root r : Element) :
    (loopBody L key v data root = .next r → r.Tag = root.Tag) ∧
    (∀ err, loopBody L key v data root = .stop r err → r.Tag = root.Tag) := by
  rcases loopBody_shape L key v data root with h | ⟨e, h⟩ | h | ⟨c, h⟩ | ⟨a, b, h⟩ <;> rw [h]
  · exact ⟨fun x => Step.noConfusion x, fun _ x => Step.noConfusion x⟩
  · refine ⟨fun x => Step.noConfusion x, fun _ x => ?_⟩
    injection x with x1
    rw [x1]
  · refine ⟨fun x => ?_, fun _ x => Step.noConfusion x⟩
    injection x with x1
    rw [x1]
  · refine ⟨fun x => ?_, fun _ x => Step.noConfusion x⟩
    injection x with x1
    rw [← x1, tag_addChild]
  · refine ⟨fun x => ?_, fun _ x => Step.noConfusion x⟩
    injection x with x1
    rw [← x1, tag_CreateAttr]

theorem processSchema_tag (L : RegexpLib) (S : Schema) (data : Data) :
    ∀ (root r : Element) (err : Option String),
      processSchema L S data root = .ok (r, err) → r.Tag = root.Tag := by
  induction S with
  | nil =>
    intro root r err h
    rw [processSchema] at h
    injection h with h1
    injection h1 with h2 _
    rw [h2]
  | cons entry rest ih =>
    obtain ⟨key, v⟩ := entry
    intro root r err h
    rw [processSchema] at h
    cases hb : loopBody L key v data root with
    | next root1 =>
      rw [hb] at h
      rw [ih root1 r err h]
      exact (loopBody_tag L key v data root root1).1 hb
    | stop root1 e =>
      rw [hb] at h
      injection h with h1
      injection h1 with h2 _
      rw [← h2]
      exact (loopBody_tag L key v data root root1).2 e hb
    | panic =>
      rw [hb] at h
      exact Result.noConfusion h

/-- C7. Array of records: for a key `:container:item` (neither segment containing
`:`) with a nested schema `S`, when `children` are, record by record and in list
order, the results of walking `S` against the records of the list at the path
`container`, each from a fresh element `item`, the loop body appends to the
current node exactly one child `container` whose children are `children`: as
many as the list has records (none for an empty or absent list), each named
`item`. -/
theorem C7_array_of_records (L : RegexpLib) (container item : String) (S : Schema)
    (data : Data) (root : Element) (children : List Element)
    (hc : ':' ∉ container.data) (hi : ':' ∉ item.data)
    (hwalk : List.Forall₂ (fun record child =>
        ∃ err, processSchema L S record (Element.new item) = .ok (child, err))
      (data.GetObjxMapSlice container) children) :
    loopBody L (":" ++ container ++ ":" ++ item) (.map S) data root
      = .next (root.addChild (Element.mk container [] "" children)) ∧
    children.length = (data.GetObjxMapSlice container).length ∧
    ∀ child ∈ children, child.Tag = item := by
  have hd : (":" ++ container ++ ":" ++ item).data
      = ':' :: (container.data ++ ':' :: item.data) := by
    simp [String.data_append]
  have hdir := directive_plain _ data ':' _ hd (by decide)
  refine ⟨?_, ?_, ?_⟩
  · rw [loopBody, hdir]
    simp only [if_true, Split_two container item hc hi]
    have := forSlices_ok (fun slice childRoot => processSchema L S slice childRoot) item
      (data.GetObjxMapSlice container) children hwalk container [] "" []
    simp only [List.nil_append] at this
    rw [Element.new, this]
  · exact (List.Forall₂.length_eq hwalk).symm
  · intro child hm
    have : ∀ (l : List Data) (cs : List Element),
        List.Forall₂ (fun record child =>
          ∃ err, processSchema L S record (Element.new item) = .ok (child, err)) l cs →
        ∀ c ∈ cs, c.Tag = item := by
      intro l cs hf
      induction hf with
      | nil => intro c hc; cases hc
      | cons hhead _ ih =>
        intro c hc
        rcases List.mem_cons.1 hc with rfl | hc
        · obtain ⟨err, he⟩ := hhead
          exact processSchema_tag L S _ _ _ _ he
        · exact ih c hc
    exact this _ _ hwalk child hm

/-- Witness of C7: the schema `{":items:item": {"@id": "", "name": ""}}` against
`{items: [{id: "1", name: "a"}, {id: "2", name: "b"}]}` gives one `items`
element with two `item` children in list order, each with an `id` attribute and
a `name` element. -/
theorem C7_array_of_records_witness :
    (':' ∉ "items".data ∧ ':' ∉ "item".data ∧
      List.Forall₂ (fun record child =>
          ∃ err, processSchema goRegexp [("@id", .str ""), ("name", .str "")] record
            (Element.new "item") = .ok (child, err))
        ((Data.withSlice [] "items"
            [Data.ofStrings [("id", "1"), ("name", "a")],
             Data.ofStrings [("id", "2"), ("name", "b")]]).GetObjxMapSlice "items")
        [Element.mk "item" [("id", "")] "" [Element.mk "name" [] "a" []],
         Element.mk "item" [("id", "")] "" [Element.mk "name" [] "b" []]]) ∧
    (loopBody goRegexp (":" ++ "items" ++ ":" ++ "item")
        (.map [("@id", .str ""), ("name", .str "")])
        (Data.withSlice [] "items"
            [Data.ofStrings [("id", "1"), ("name", "a")],
             Data.ofStrings [("id", "2"), ("name", "b")]])
        (Element.new "root")
      = .next ((Element.new "root").addChild (Element.mk "items" [] ""
          [Element.mk "item" [("id", "")] "" [Element.mk "name" [] "a" []],
           Element.mk "item" [("id", "")] "" [Element.mk "name" [] "b" []]])) ∧
      [Element.mk "item" [("id", "")] "" [Element.mk "name" [] "a" []],
        Element.mk "item" [("id", "")] "" [Element.mk "name" [] "b" []]].length
        = ((Data.withSlice [] "items"
            [Data.ofStrings [("id", "1"), ("name", "a")],
             Data.ofStrings [("id", "2"), ("name", "b")]]).GetObjxMapSlice "items").length ∧
      ∀ child ∈ [Element.mk "item" [("id", "")] "" [Element.mk "name" [] "a" []],
          Element.mk "item" [("id", "")] "" [Element.mk "name" [] "b" []]],
        child.Tag = "item") :=
  ⟨⟨by decide, by decide,
    List.Forall₂.cons ⟨none, rfl⟩ (List.Forall₂.cons ⟨none, rfl⟩ List.Forall₂.nil)⟩,
   C7_array_of_records goRegexp "items" "item" [("@id", .str ""), ("name", .str "")]
     (Data.withSlice [] "items"
        [Data.ofStrings [("id", "1"), ("name", "a")],
         Data.ofStrings [("id", "2"), ("name", "b")]])
     (Element.new "root")
     [Element.mk "item" [("id", "")] "" [Element.mk "name" [] "a" []],
      Element.mk "item" [("id", "")] "" [Element.mk "name" [] "b" []]]
     (by decide) (by decide)
     (List.Forall₂.cons ⟨none, rfl⟩ (List.Forall₂.cons ⟨none, rfl⟩ List.Forall₂.nil))⟩

/-- Witness of the amended C10: `?@id` against `{"@id": "1"}` is not elided
and runs as `@id` alone. -/
theorem C10_optional_stacking_witness :
    ¬ ((Data.ofStrings [("@id", "1")]).Has ("@" ++ "id") = false ∨
        (Data.ofStrings [("@id", "1")]).GetString ("@" ++ "id") = "") ∧
    loopBody goRegexp ("?" ++ ("@" ++ "id")) (.str "") (Data.ofStrings [("@id", "1")])
        (Element.new "root")
      = loopBody goRegexp ("@" ++ "id") (.str "") (Data.ofStrings [("@id", "1")])
        (Element.new "root") :=
  ⟨by decide,
   ((C10_optional_stacking goRegexp (.str "") (Data.ofStrings [("@id", "1")])
      (Element.new "root")).1 "id").2 (by decide)⟩

/-! ## The loop -/

theorem processSchema_append (L : RegexpLib) (pre rest : Schema) (data : Data) :
    ∀ (root root1 : Element), walkThrough L pre data root = some root1 →
      processSchema L (pre ++ rest) data root = processSchema L rest data root1 := by
  induction pre with
  | nil =>
    intro root root1 h
    rw [walkThrough] at h
    injection h with h1
    rw [List.nil_append, h1]
  | cons entry pre ih =>
    obtain ⟨key, v⟩ := entry
    intro root root1 h
    rw [walkThrough] at h
    rw [List.cons_append, processSchema]
    cases hb : loopBody L key v data root with
    | next r =>
      rw [hb] at h
      exact ih r root1 h
    | stop r e =>
      rw [hb] at h
      exact Option.noConfusion h
    | panic =>
      rw [hb] at h
      exact Option.noConfusion h

theorem processSchema_of_walkThrough (L : RegexpLib) (S : Schema) (data : Data)
    (root root1 : Element) (h : walkThrough L S data root = some root1) :
    processSchema L S data root = .ok (root1, none) := by
  have := processSchema_append L S [] data root root1 h
  rw [List.append_nil] at this
  rw [this, processSchema]

theorem getValidatedValue_empty_rule (L : RegexpLib) (key value : String) :
    getValidatedValue L "" key value = .ok (value, none) := by
  simp [getValidatedValue]

theorem forSlices_total (walk : Data → Element → Result (Element × Option String))
    (item : String)
    (h : ∀ data root, ∃ r err, walk data root = .ok (r, err)) :
    ∀ (dataSlice : List Data) (rootElement : Element),
      ∃ r, forSlices walk item dataSlice rootElement = .ok r := by
  intro dataSlice
  induction dataSlice with
  | nil => exact fun rootElement => ⟨rootElement, rfl⟩
  | cons slice dataSlice ih =>
    intro rootElement
    obtain ⟨c, err, hc⟩ := h slice (Element.new item)
    obtain ⟨r, hr⟩ := ih (rootElement.addChild c)
    exact ⟨r, by rw [forSlices, hc]; exact hr⟩

/-! ## Schemas that cannot fail -/

mutual
/-- On a schema that satisfies the conditions of C8 every iteration of the loop
goes on to the next entry. -/
theorem walkThrough_plainSchema (L : RegexpLib) :
    ∀ (S : Schema), plainSchema S = true →
      ∀ (data : Data) (root : Element), ∃ r, walkThrough L S data root = some r
  | [], _, _, root => ⟨root, rfl⟩
  | (key, v) :: rest, h, data, root => by
    rw [plainSchema] at h
    simp only [Bool.and_eq_true] at h
    obtain ⟨r1, h1⟩ := loopBody_plainValue L key v h.1.1 h.1.2 data root
    obtain ⟨r2, h2⟩ := walkThrough_plainSchema L rest h.2 data r1
    exact ⟨r2, by rw [walkThrough, h1]; exact h2⟩
/-- One iteration on an entry that satisfies the conditions of C8. -/
theorem loopBody_plainValue (L : RegexpLib) :
    ∀ (key : String) (v : SchemaValue), plainKey key = true → plainValue v = true →
      ∀ (data : Data) (root : Element), ∃ r, loopBody L key v data root = .next r
  | key, .str rule, hk, hv, data, root => by
    rw [plainValue] at hv
    have hrule : rule = "" := of_decide_eq_true hv
    unfold plainKey at hk
    cases hd : key.data with
    | nil => simp [hd] at hk
    | cons fc sKey =>
      have hq : fc ≠ '?' := by
        intro e
        simp [hd, e] at hk
      rw [loopBody, directive_plain key data fc sKey hd hq, hrule]
      simp only [getValidatedValue_empty_rule]
      by_cases ha : fc = '@'
      · exact ⟨_, by rw [if_pos ha]⟩
      · exact ⟨_, by rw [if_neg ha]⟩
  | key, .map S, hk, hv, data, root => by
    rw [plainValue] at hv
    have ih := walkThrough_plainSchema L S hv
    have hwalk : ∀ d r, ∃ r1 err, processSchema L S d r = .ok (r1, err) := by
      intro d r
      obtain ⟨r1, h1⟩ := ih d r
      exact ⟨r1, none, processSchema_of_walkThrough L S d r r1 h1⟩
    unfold plainKey at hk
    cases hd : key.data with
    | nil => simp [hd] at hk
    | cons fc sKey =>
      have hq : fc ≠ '?' := by
        intro e
        simp [hd, e] at hk
      rw [loopBody, directive_plain key data fc sKey hd hq]
      by_cases hc : fc = ':'
      · have hlen : (Split (String.mk sKey) ':').length = 2 := by
          simpa [hd, hq, hc] using hk
        obtain ⟨container, item, hsplit⟩ := List.length_eq_two.1 hlen
        obtain ⟨r, hr⟩ := forSlices_total
          (fun slice childRoot => processSchema L S slice childRoot) item hwalk
          (data.GetObjxMapSlice container) (Element.new container)
        exact ⟨root.addChild r, by simp only [if_pos hc, hsplit, hr]⟩
      · obtain ⟨r1, err, h1⟩ := hwalk (data.GetObjxMap key) (Element.new key)
        exact ⟨root.addChild r1, by simp only [if_neg hc, h1]⟩
  | _, .other, _, hv, _, _ => by
    rw [plainValue] at hv
    exact Bool.noConfusion hv
end

/-- C8. For a schema without optional keys, whose rule strings are all empty
and that is structurally valid at every depth (keys not empty, values rule
strings or nested schemas, array keys with exactly two segments), and for every
data bag, `Process` returns the serialized document and no error. -/
theorem C8_plain_schema_no_error (L : RegexpLib) (WriteToString : Element → String)
    (x : XmlBuilder) (data : Data) (h : plainSchema x.Schema = true) :
    ∃ rootElement,
      processSchema L x.Schema data (Element.new x.RootNode) = .ok (rootElement, none) ∧
      Process L WriteToString x data = .ok (WriteToString rootElement, none) := by
  obtain ⟨r, hr⟩ := walkThrough_plainSchema L x.Schema h data (Element.new x.RootNode)
  have hp := processSchema_of_walkThrough L x.Schema data _ r hr
  exact ⟨r, hp, by rw [Process, hp]⟩

/-- Witness of C8: the schema `{":items:item": {"@id": "", "name": ""}, "title": ""}`. -/
theorem C8_plain_schema_no_error_witness :
    plainSchema [(":items:item", .map [("@id", .str ""), ("name", .str "")]),
        ("title", .str "")] = true ∧
    ∃ rootElement,
      processSchema goRegexp
          (XmlBuilder.mk "" "root"
            [(":items:item", .map [("@id", .str ""), ("name", .str "")]), ("title", .str "")]
            false).Schema
          (Data.withSlice [("title", "t")] "items" [Data.ofStrings [("name", "a")]])
          (Element.new (XmlBuilder.mk "" "root"
            [(":items:item", .map [("@id", .str ""), ("name", .str "")]), ("title", .str "")]
            false).RootNode)
        = .ok (rootElement, none) ∧
      Process goRegexp renderXml
          (XmlBuilder.mk "" "root"
            [(":items:item", .map [("@id", .str ""), ("name", .str "")]), ("title", .str "")]
            false)
          (Data.withSlice [("title", "t")] "items" [Data.ofStrings [("name", "a")]])
        = .ok (renderXml rootElement, none) :=
  ⟨by decide,
   C8_plain_schema_no_error goRegexp renderXml
     (XmlBuilder.mk "" "root"
       [(":items:item", .map [("@id", .str ""), ("name", .str "")]), ("title", .str "")]
       false)
     (Data.withSlice [("title", "t")] "items" [Data.ofStrings [("name", "a")]])
     (by decide)⟩

/-! ## Malformed array keys -/

theorem loopBody_malformed (L : RegexpLib) (sKey : String) (S : Schema) (data : Data)
    (root : Element) (hparts : (Split sKey ':').length ≠ 2) :
    loopBody L (":" ++ sKey) (.map S) data root
      = .stop root (some ("Key of map slice  " ++ (":" ++ sKey) ++ " must contain 2 parts")) := by
  have hdir : directive (":" ++ sKey) data = .entry (":" ++ sKey) ':' sKey := by
    rw [directive_plain (":" ++ sKey) data ':' sKey.data (data_cons_append ':' sKey)
      (by decide), mk_data]
  rw [loopBody, hdir]
  simp only [if_true]
  split
  · rename_i container item heq
    rw [heq] at hparts
    exact absurd rfl hparts
  · rfl

/-- C5, as stated, fails. A key `:onlyone` whose value is a rule string is
processed as a plain element, and a malformed array key inside a nested schema
does not reach the caller: in both cases `Process` returns a document and no
error. -/
theorem C5_counterexample :
    Process goRegexp renderXml (XmlBuilder.mk "" "root" [(":onlyone", .str "")] false)
        Data.empty
      = .ok ("<root><:onlyone></:onlyone></root>", none) ∧
    Process goRegexp renderXml
        (XmlBuilder.mk "" "root" [("a", .map [(":onlyone", .map [])])] false) Data.empty
      = .ok ("<root><a></a></root>", none) := by
  decide

/-- C5, amended. When the walk of the top-level entries reaches (every earlier
entry having let the loop go on) a key of the array-of-records form whose value
is a nested schema and whose remainder does not split on `:` into exactly two
segments, `Process` returns, for every data bag, an empty result and the error
naming the key. -/
theorem C5_malformed_array_key (L : RegexpLib) (WriteToString : Element → String)
    (x : XmlBuilder) (pre post S : Schema) (sKey : String) (data : Data) (root1 : Element)
    (hx : x.Schema = pre ++ (":" ++ sKey, SchemaValue.map S) :: post)
    (hparts : (Split sKey ':').length ≠ 2)
    (hpre : walkThrough L pre data (Element.new x.RootNode) = some root1) :
    Process L WriteToString x data
      = .ok ("", some ("Key of map slice  " ++ (":" ++ sKey) ++ " must contain 2 parts")) := by
  rw [Process, hx, processSchema_append L pre _ data _ root1 hpre, processSchema,
    loopBody_malformed L sKey S data root1 hparts]

/-- Witness of the amended C5: the key `:onlyone` after a plain entry. -/
theorem C5_malformed_array_key_witness :
    ((XmlBuilder.mk "" "root" [("title", .str ""), (":onlyone", .map []), ("z", .str "")]
        false).Schema
      = [("title", .str "")] ++ (":" ++ "onlyone", SchemaValue.map []) :: [("z", .str "")] ∧
      (Split "onlyone" ':').length ≠ 2 ∧
      walkThrough goRegexp [("title", .str "")] (Data.ofStrings [("title", "t")])
          (Element.new (XmlBuilder.mk "" "root"
            [("title", .str ""), (":onlyone", .map []), ("z", .str "")] false).RootNode)
        = some (Element.mk "root" [] "" [Element.mk "title" [] "t" []])) ∧
    Process goRegexp renderXml
        (XmlBuilder.mk "" "root" [("title", .str ""), (":onlyone", .map []), ("z", .str "")]
          false)
        (Data.ofStrings [("title", "t")])
      = .ok ("", some ("Key of map slice  " ++ (":" ++ "onlyone") ++ " must contain 2 parts")) :=
  ⟨⟨rfl, by decide, rfl⟩,
   C5_malformed_array_key goRegexp renderXml
     (XmlBuilder.mk "" "root" [("title", .str ""), (":onlyone", .map []), ("z", .str "")]
       false)
     [("title", .str "")] [("z", .str "")] [] "onlyone" (Data.ofStrings [("title", "t")])
     (Element.mk "root" [] "" [Element.mk "title" [] "t" []]) rfl (by decide) rfl⟩

/-! ## Propagation of validation errors -/

/-- C1 at its failing inputs. The rule `/^[0-9]+$/` rejects the value `4a`
with an error, and yet `Process` returns a document and no error: for an element
leaf, for an attribute, and for a leaf inside a nested schema. -/
theorem C1_validation_error_not_returned :
    getValidatedValue goRegexp "/^[0-9]+$/" "n" "4a"
      = .ok ("", some "Invalid value 4a for key n") ∧
    Process goRegexp renderXml (XmlBuilder.mk "" "root" [("n", .str "/^[0-9]+$/")] false)
        (Data.ofStrings [("n", "4a")])
      = .ok ("<root></root>", none) ∧
    getValidatedValue goRegexp "/^[0-9]+$/" "@n" "4a"
      = .ok ("", some "Invalid value 4a for key @n") ∧
    Process goRegexp renderXml (XmlBuilder.mk "" "root" [("@n", .str "/^[0-9]+$/")] false)
        (Data.ofStrings [("@n", "4a")])
      = .ok ("<root></root>", none) ∧
    Process goRegexp renderXml
        (XmlBuilder.mk "" "root" [("a", .map [("n", .str "/^[0-9]+$/")])] false)
        (Data.withRecord [] "a" (Data.ofStrings [("n", "4a")]))
      = .ok ("<root><a></a></root>", none) := by
  decide

/-! ## Plain entries -/

/-- C12. Plain scalar leaf: for a key `k` without directive prefix (not empty,
not beginning with `?`, `@` or `:`) and a rule string `r`, when
`getValidatedValue` accepts the string stored at the data path `k` and yields
`v`, the loop body appends to the current node exactly one child, the element
`k` with text `v` (without attributes or children), and leaves the node's name,
attributes, text and earlier children unchanged. -/
theorem C12_plain_leaf (L : RegexpLib) (k r v : String) (data : Data) (root : Element)
    (fc : Char) (rest : List Char) (hk : k.data = fc :: rest)
    (hq : fc ≠ '?') (ha : fc ≠ '@') (_hc : fc ≠ ':')
    (h : getValidatedValue L r k (data.GetString k) = .ok (v, none)) :
    loopBody L k (.str r) data root = .next (root.addChild (Element.mk k [] v [])) ∧
    (root.addChild (Element.mk k [] v [])).Child = root.Child ++ [Element.mk k [] v []] ∧
    (root.addChild (Element.mk k [] v [])).Attr = root.Attr ∧
    (root.addChild (Element.mk k [] v [])).Tag = root.Tag ∧
    (root.addChild (Element.mk k [] v [])).Text = root.Text := by
  refine ⟨?_, ?_, ?_, ?_, ?_⟩
  · rw [loopBody, directive_plain k data fc rest hk hq]
    simp only [if_neg ha, h]
    rfl
  · cases root; rfl
  · cases root; rfl
  · cases root; rfl
  · cases root; rfl

/-- Witness of C12: key `name`, rule `red|green`, data `{name: "blue"}`: the
child `name` with the text `red` is appended after the existing child. -/
theorem C12_plain_leaf_witness :
    ("name".data = 'n' :: ['a', 'm', 'e'] ∧ 'n' ≠ '?' ∧ 'n' ≠ '@' ∧ 'n' ≠ ':' ∧
      getValidatedValue goRegexp "red|green" "name"
        ((Data.ofStrings [("name", "blue")]).GetString "name") = .ok ("red", none)) ∧
    (loopBody goRegexp "name" (.str "red|green") (Data.ofStrings [("name", "blue")])
        (Element.mk "root" [("id", "1")] "" [Element.mk "a" [] "" []])
      = .next ((Element.mk "root" [("id", "1")] "" [Element.mk "a" [] "" []]).addChild
          (Element.mk "name" [] "red" [])) ∧
      ((Element.mk "root" [("id", "1")] "" [Element.mk "a" [] "" []]).addChild
          (Element.mk "name" [] "red" [])).Child
        = (Element.mk "root" [("id", "1")] "" [Element.mk "a" [] "" []]).Child
            ++ [Element.mk "name" [] "red" []] ∧
      ((Element.mk "root" [("id", "1")] "" [Element.mk "a" [] "" []]).addChild
          (Element.mk "name" [] "red" [])).Attr
        = (Element.mk "root" [("id", "1")] "" [Element.mk "a" [] "" []]).Attr ∧
      ((Element.mk "root" [("id", "1")] "" [Element.mk "a" [] "" []]).addChild
          (Element.mk "name" [] "red" [])).Tag
        = (Element.mk "root" [("id", "1")] "" [Element.mk "a" [] "" []]).Tag ∧
      ((Element.mk "root" [("id", "1")] "" [Element.mk "a" [] "" []]).addChild
          (Element.mk "name" [] "red" [])).Text
        = (Element.mk "root" [("id", "1")] "" [Element.mk "a" [] "" []]).Text) :=
  ⟨⟨by decide, by decide, by decide, by decide, by decide⟩,
   C12_plain_leaf goRegexp "name" "red|green" "red" (Data.ofStrings [("name", "blue")])
     (Element.mk "root" [("id", "1")] "" [Element.mk "a" [] "" []]) 'n' ['a', 'm', 'e']
     (by decide) (by decide) (by decide) (by decide) (by decide)⟩

/-- C13. Plain nested element: for a key `k` without directive prefix whose
value is a nested schema `S`, when walking `S` against the record at the data
path `k` from a fresh element `k` returns the element `child`, the loop body
appends exactly that one child, named `k`, to the current node and goes on,
whatever error the nested walk returned. When the bag has no record at `k`, the
record walked is the empty one. -/
theorem C13_plain_nested (L : RegexpLib) (k : String) (S : Schema) (data : Data)
    (root child : Element) (err : Option String)
    (fc : Char) (rest : List Char) (hk : k.data = fc :: rest)
    (hq : fc ≠ '?') (_ha : fc ≠ '@') (hc : fc ≠ ':')
    (h : processSchema L S (data.GetObjxMap k) (Element.new k) = .ok (child, err)) :
    loopBody L k (.map S) data root = .next (root.addChild child) ∧
    (root.addChild child).Child = root.Child ++ [child] ∧
    (root.addChild child).Attr = root.Attr ∧
    child.Tag = k ∧
    (∀ has str mapSlice map, data = Data.mk has str mapSlice map → map k = none →
      data.GetObjxMap k = Data.empty) := by
  refine ⟨?_, ?_, ?_, ?_, ?_⟩
  · rw [loopBody, directive_plain k data fc rest hk hq]
    simp only [if_neg hc, h]
  · cases root; rfl
  · cases root; rfl
  · exact processSchema_tag L S _ _ _ _ h
  · intro has str mapSlice map hd hm
    rw [hd, Data.GetObjxMap, hm]

/-- Witness of C13: key `address` with the nested schema `{"city": ""}` against
a bag without `address`: the element `address` is created and the schema walked
against the empty record. -/
theorem C13_plain_nested_witness :
    ("address".data = 'a' :: ['d', 'd', 'r', 'e', 's', 's'] ∧
      'a' ≠ '?' ∧ 'a' ≠ '@' ∧ 'a' ≠ ':' ∧
      processSchema goRegexp [("city", .str "")]
          ((Data.ofStrings [("name", "a")]).GetObjxMap "address") (Element.new "address")
        = .ok (Element.mk "address" [] "" [Element.mk "city" [] "" []], none)) ∧
    (loopBody goRegexp "address" (.map [("city", .str "")]) (Data.ofStrings [("name", "a")])
        (Element.new "root")
      = .next ((Element.new "root").addChild
          (Element.mk "address" [] "" [Element.mk "city" [] "" []])) ∧
      ((Element.new "root").addChild
          (Element.mk "address" [] "" [Element.mk "city" [] "" []])).Child
        = (Element.new "root").Child
            ++ [Element.mk "address" [] "" [Element.mk "city" [] "" []]] ∧
      ((Element.new "root").addChild
          (Element.mk "address" [] "" [Element.mk "city" [] "" []])).Attr
        = (Element.new "root").Attr ∧
      (Element.mk "address" [] "" [Element.mk "city" [] "" []]).Tag = "address" ∧
      (∀ has str mapSlice map, Data.ofStrings [("name", "a")] = Data.mk has str mapSlice map →
        map "address" = none →
        (Data.ofStrings [("name", "a")]).GetObjxMap "address" = Data.empty)) :=
  ⟨⟨by decide, by decide, by decide, by decide, rfl⟩,
   C13_plain_nested goRegexp "address" [("city", .str "")] (Data.ofStrings [("name", "a")])
     (Element.new "root") (Element.mk "address" [] "" [Element.mk "city" [] "" []]) none
     'a' ['d', 'd', 'r', 'e', 's', 's'] (by decide) (by decide) (by decide) (by decide) rfl⟩

/-! ## The pattern of a regex rule -/

theorem dropWhile_snoc_reverse (f : Char → Bool) (c : Char) (hc : f c = true)
    (p : List Char) :
    ((p ++ [c]).dropWhile f).reverse.dropWhile f = (p.dropWhile f).reverse.dropWhile f := by
  induction p with
  | nil => simp [List.dropWhile, hc]
  | cons a p ih =>
    by_cases ha : f a = true
    · simpa [List.dropWhile, ha] using ih
    · simp [List.dropWhile, ha, hc]

theorem trimChars_delimited (c : Char) (p : List Char) :
    trimChars c (c :: (p ++ [c])) = trimChars c p := by
  unfold trimChars
  have h1 : (c :: (p ++ [c])).dropWhile (fun x => x == c)
      = (p ++ [c]).dropWhile (fun x => x == c) := by
    simp [List.dropWhile]
  rw [h1, dropWhile_snoc_reverse (fun x => x == c) c (by simp) p]

theorem trimChars_id (c : Char) (p : List Char)
    (hh : p.head? ≠ some c) (hl : p.getLast? ≠ some c) : trimChars c p = p := by
  unfold trimChars
  have h1 : p.dropWhile (fun x => x == c) = p := by
    cases p with
    | nil => rfl
    | cons a p =>
      have hne : a ≠ c := fun e => hh (by simp [e])
      have hb : (a == c) = false := by simpa using hne
      simp only [List.dropWhile, hb]
  rw [h1]
  have h2 : p.reverse.dropWhile (fun x => x == c) = p.reverse := by
    cases hr : p.reverse with
    | nil => rfl
    | cons a q =>
      have hlast : p.getLast? = some a := by
        rw [List.getLast?_eq_head?_reverse, hr]
        rfl
      have hne : a ≠ c := fun e => hl (by rw [hlast, e])
      have hb : (a == c) = false := by simpa using hne
      simp only [List.dropWhile, hb]
  rw [h2, List.reverse_reverse]

theorem data_delimited (p : String) : ("/" ++ p ++ "/").data = '/' :: (p.data ++ ['/']) := by
  simp [String.data_append]

theorem Trim_delimited (p : String) : Trim ("/" ++ p ++ "/") '/' = Trim p '/' := by
  unfold Trim
  rw [data_delimited, trimChars_delimited]

/-- A rule that begins with `/`: the pattern handed to `MustCompile` is the rule
trimmed of `/`. -/
theorem getValidatedValue_slash (L : RegexpLib) (rule key value : String)
    (hfc : rule.data.head? = some '/') :
    getValidatedValue L rule key value =
      match L.Compile (Trim rule '/') with
      | none => .panic
      | some r =>
        if L.ReplaceAllString r value "" = "" then .ok (value, none)
        else .ok ("", some ("Invalid value " ++ value ++ " for key " ++ key)) := by
  cases hc : L.Compile (Trim rule '/') with
  | some r => exact getValidatedValue_regex L rule key value r hfc hc
  | none =>
    unfold getValidatedValue
    cases hd : rule.data with
    | nil => simp [hd] at hfc
    | cons fc tl =>
      have hne : rule ≠ "" := by
        intro h
        rw [h] at hd
        exact List.noConfusion hd
      have hfc1 : fc = '/' := by simpa [hd] using hfc
      rw [if_neg hne]
      simp only [hfc1, if_true, RegexpLib.MustCompile, hc]

/-- C14, as stated, fails. For the pattern `/a/` the rule `//a//` is validated
against the pattern `a`: the value `a` is accepted and the value `/a/` is
rejected, while the pattern `/a/` itself deletes the whole of `/a/`. -/
theorem C14_counterexample :
    Trim ("/" ++ "/a/" ++ "/") '/' = "a" ∧
    getValidatedValue goRegexp ("/" ++ "/a/" ++ "/") "k" "a" = .ok ("a", none) ∧
    getValidatedValue goRegexp ("/" ++ "/a/" ++ "/") "k" "/a/"
      = .ok ("", some "Invalid value /a/ for key k") ∧
    compile "/a/" = some (.cat (.lit '/') (.cat (.lit 'a') (.lit '/'))) ∧
    goRegexp.ReplaceAllString (Regex.cat (.lit '/') (.cat (.lit 'a') (.lit '/'))) "/a/" "" = "" ∧
    goRegexp.ReplaceAllString (Regex.cat (.lit '/') (.cat (.lit 'a') (.lit '/'))) "a" "" = "a" := by
  decide

/-- C14, amended. For every pattern string `p`, the regex rule `"/" ++ p ++ "/"`
is validated against the pattern obtained from `p` by removing every leading
and every trailing `/`; a pattern that neither begins nor ends with `/` is kept
intact, and the rule is then validated against exactly `p`. -/
theorem C14_pattern_of_rule (L : RegexpLib) (p key value : String) :
    Trim ("/" ++ p ++ "/") '/' = Trim p '/' ∧
    getValidatedValue L ("/" ++ p ++ "/") key value =
      (match L.Compile (Trim p '/') with
      | none => .panic
      | some r =>
        if L.ReplaceAllString r value "" = "" then .ok (value, none)
        else .ok ("", some ("Invalid value " ++ value ++ " for key " ++ key))) ∧
    (p.data.head? ≠ some '/' → p.data.getLast? ≠ some '/' → Trim p '/' = p) := by
  refine ⟨Trim_delimited p, ?_, fun hh hl => ?_⟩
  · rw [getValidatedValue_slash L _ key value (by rw [data_delimited]; rfl), Trim_delimited]
  · unfold Trim
    rw [trimChars_id '/' p.data hh hl, mk_data]

/-- Witness of the amended C14 at the pattern `^[0-9]+$`. -/
theorem C14_pattern_of_rule_witness :
    ("^[0-9]+$".data.head? ≠ some '/' ∧ "^[0-9]+$".data.getLast? ≠ some '/') ∧
    Trim "^[0-9]+$" '/' = "^[0-9]+$" :=
  ⟨⟨by decide, by decide⟩,
   (C14_pattern_of_rule goRegexp "^[0-9]+$" "n" "42").2.2 (by decide) (by decide)⟩

/-! ## Algebra of the validator -/

/-- A non-empty rule that does not begin with `/` is an enumeration. -/
theorem getValidatedValue_enum (L : RegexpLib) (rule key value : String)
    (hne : rule ≠ "") (hfc : rule.data.head? ≠ some '/') :
    ∃ first rest, Split rule '|' = first :: rest ∧
      getValidatedValue L rule key value =
        .ok (if value ∈ first :: rest then value else first, none) := by
  unfold getValidatedValue
  rw [if_neg hne]
  cases hd : rule.data with
  | nil => exact absurd ((data_nil_iff rule).1 hd) hne
  | cons fc tl =>
    have hfc1 : fc ≠ '/' := by
      intro h
      apply hfc
      simp [hd, h]
    simp only [if_neg hfc1]
    cases hs : Split rule '|' with
    | nil => exact absurd hs (Split_ne_nil rule '|')
    | cons p parts =>
      refine ⟨p, parts, rfl, ?_⟩
      by_cases hm : value ∈ p :: parts
      · have hin : stringInSlice (p :: parts) value = true := (stringInSlice_iff _ _).2 hm
        simp only [hin, if_pos hm]
        rfl
      · have hin : stringInSlice (p :: parts) value = false := by
          cases hb : stringInSlice (p :: parts) value with
          | false => rfl
          | true => exact absurd ((stringInSlice_iff _ _).1 hb) hm
        simp only [hin, if_neg hm]
        rfl

theorem ok_pair_inj {a b : String} {e f : Option String}
    (h : (Result.ok (a, e) : Result (String × Option String)) = .ok (b, f)) :
    a = b ∧ e = f := by
  injection h with h1
  injection h1 with h2 h3
  exact ⟨h2, h3⟩

/-- C16. `getValidatedValue` is idempotent on its accepted output: when it
returns `(v, nil)` for a rule, key and value, it returns `(v, nil)` again for
`v`; and for an enumeration rule (not empty, not beginning with `/`) the value
returned is one of the alternatives of the rule. -/
theorem C16_idempotent (L : RegexpLib) (rule key value v : String)
    (h : getValidatedValue L rule key value = .ok (v, none)) :
    getValidatedValue L rule key v = .ok (v, none) ∧
    (rule ≠ "" → rule.data.head? ≠ some '/' → v ∈ Split rule '|') := by
  by_cases hne : rule = ""
  · refine ⟨?_, fun hn => absurd hne hn⟩
    rw [hne]
    exact getValidatedValue_empty_rule L key v
  · by_cases hfc : rule.data.head? = some '/'
    · refine ⟨?_, fun _ hn => absurd hfc hn⟩
      have hs := getValidatedValue_slash L rule key value hfc
      rw [h] at hs
      cases hc : L.Compile (Trim rule '/') with
      | none =>
        rw [hc] at hs
        exact Result.noConfusion hs
      | some r =>
        have hs := getValidatedValue_regex L rule key value r hfc hc
        rw [h] at hs
        by_cases hr : L.ReplaceAllString r value "" = ""
        · rw [if_pos hr] at hs
          have hv := (ok_pair_inj hs).1
          rw [hv]
          rw [hv] at h
          exact h
        · rw [if_neg hr] at hs
          exact Option.noConfusion (ok_pair_inj hs).2
    · obtain ⟨first, rest, hs, he⟩ := getValidatedValue_enum L rule key value hne hfc
      rw [h] at he
      have hv := (ok_pair_inj he).1
      have hmem : v ∈ first :: rest := by
        rw [hv]
        by_cases hm : value ∈ first :: rest
        · rw [if_pos hm]
          exact hm
        · rw [if_neg hm]
          exact List.mem_cons_self _ _
      refine ⟨?_, fun _ _ => by rw [hs]; exact hmem⟩
      obtain ⟨first1, rest1, hs1, he1⟩ := getValidatedValue_enum L rule key v hne hfc
      rw [hs] at hs1
      rw [← hs1, if_pos hmem] at he1
      exact he1

/-- Witness of C16: the rule `red|green|blue` sends `purple` to `red`, and
`red` to `red`. -/
theorem C16_idempotent_witness :
    getValidatedValue goRegexp "red|green|blue" "colour" "purple" = .ok ("red", none) ∧
    (getValidatedValue goRegexp "red|green|blue" "colour" "red" = .ok ("red", none) ∧
      ("red|green|blue" ≠ "" → "red|green|blue".data.head? ≠ some '/' →
        "red" ∈ Split "red|green|blue" '|')) :=
  ⟨by decide,
   C16_idempotent goRegexp "red|green|blue" "colour" "purple" "red" (by decide)⟩

/-! ## The empty value -/

theorem replaceLoop_nil (re : Regex) :
    ∀ (n lastMatchEnd searchPos : Nat), replaceLoop re [] [] n lastMatchEnd searchPos [] = []
  | 0, _, _ => by simp [replaceLoop]
  | n + 1, lastMatchEnd, searchPos => by
    rw [replaceLoop]
    split
    · split
      · simp
      · simp only [List.take_nil, List.drop_nil, List.append_nil, ite_self]
        exact replaceLoop_nil re n _ _
    · simp

/-- The reference engine deletes nothing from, and adds nothing to, the empty text. -/
theorem goRegexp_replace_empty (r : goRegexp.Regexp) :
    goRegexp.ReplaceAllString r "" "" = "" := by
  show String.mk (replaceLoop r [] [] 2 0 0 []) = ""
  rw [replaceLoop_nil]

/-- C17. The empty candidate never fails validation: for a regexp library that
returns the empty text when all matches are deleted from the empty text (as
package `regexp` does), for every rule that is empty, an enumeration, or a regex
rule whose pattern compiles, and for every key, `getValidatedValue` returns no
error for the value `""`. -/
theorem C17_empty_value (L : RegexpLib) (rule key : String)
    (hL : ∀ r, L.ReplaceAllString r "" "" = "")
    (hcomp : rule.data.head? = some '/' → (L.Compile (Trim rule '/')).isSome = true) :
    ∃ v, getValidatedValue L rule key "" = .ok (v, none) := by
  by_cases hne : rule = ""
  · exact ⟨"", by rw [hne]; exact getValidatedValue_empty_rule L key ""⟩
  · by_cases hfc : rule.data.head? = some '/'
    · cases hc : L.Compile (Trim rule '/') with
      | none =>
        have := hcomp hfc
        rw [hc] at this
        exact Bool.noConfusion this
      | some r =>
        have hs := getValidatedValue_regex L rule key "" r hfc hc
        rw [if_pos (hL r)] at hs
        exact ⟨"", hs⟩
    · obtain ⟨first, rest, _, he⟩ := getValidatedValue_enum L rule key "" hne hfc
      exact ⟨_, he⟩

/-- Witness of C17: the rule `/^[0-9]+$/`, whose pattern does not match the
empty string, accepts the empty value. -/
theorem C17_empty_value_witness :
    ((∀ r, goRegexp.ReplaceAllString r "" "" = "") ∧
      ("/^[0-9]+$/".data.head? = some '/' →
        (goRegexp.Compile (Trim "/^[0-9]+$/" '/')).isSome = true)) ∧
    (∃ v, getValidatedValue goRegexp "/^[0-9]+$/" "n" "" = .ok (v, none)) ∧
    getValidatedValue goRegexp "/^[0-9]+$/" "n" "" = .ok ("", none) ∧
    Regex.fullMatch (.cat .bol (.cat (.plus (.cls false [('0', '9')])) .eol)) "" = false :=
  ⟨⟨goRegexp_replace_empty, fun _ => rfl⟩,
   C17_empty_value goRegexp "/^[0-9]+$/" "n" goRegexp_replace_empty (fun _ => rfl),
   by decide, by decide⟩

/-! ## Panics of the validator -/

/-- C18, as stated, fails. The rule `/(/` begins with `/` and its pattern `(`
is not a valid regular expression: `MustCompile` panics, and so does
`getValidatedValue`. -/
theorem C18_counterexample :
    Trim "/(/" '/' = "(" ∧ compile "(" = none ∧
    getValidatedValue goRegexp "/(/" "n" "42" = .panic := by
  decide

/-- C18, amended. `getValidatedValue` panics exactly for a rule that begins with
`/` and whose pattern (the rule trimmed of `/`) is not a valid regular
expression; for every other rule, and every key and value, it returns normally
with a value and an error or nil. -/
theorem C18_panic_iff (L : RegexpLib) (rule key value : String) :
    (getValidatedValue L rule key value = .panic ↔
      (rule.data.head? = some '/' ∧ L.Compile (Trim rule '/') = none)) ∧
    (¬ (rule.data.head? = some '/' ∧ L.Compile (Trim rule '/') = none) →
      ∃ v err, getValidatedValue L rule key value = .ok (v, err)) := by
  have key1 : ¬ (rule.data.head? = some '/' ∧ L.Compile (Trim rule '/') = none) →
      ∃ v err, getValidatedValue L rule key value = .ok (v, err) := by
    intro hn
    by_cases hne : rule = ""
    · exact ⟨value, none, by rw [hne]; exact getValidatedValue_empty_rule L key value⟩
    · by_cases hfc : rule.data.head? = some '/'
      · cases hc : L.Compile (Trim rule '/') with
        | none => exact absurd ⟨hfc, hc⟩ hn
        | some r =>
          have hs := getValidatedValue_regex L rule key value r hfc hc
          by_cases hr : L.ReplaceAllString r value "" = ""
          · rw [if_pos hr] at hs
            exact ⟨_, _, hs⟩
          · rw [if_neg hr] at hs
            exact ⟨_, _, hs⟩
      · obtain ⟨first, rest, _, he⟩ := getValidatedValue_enum L rule key value hne hfc
        exact ⟨_, _, he⟩
  refine ⟨⟨fun hp => ?_, fun ⟨hfc, hc⟩ => ?_⟩, key1⟩
  · by_contra hn
    obtain ⟨v, err, hv⟩ := key1 hn
    rw [hv] at hp
    exact Result.noConfusion hp
  · rw [getValidatedValue_slash L rule key value hfc, hc]

/-- Witness of the amended C18: the rule `/^[0-9]+$/` compiles, and the call
returns. -/
theorem C18_panic_iff_witness :
    ¬ ("/^[0-9]+$/".data.head? = some '/' ∧
        goRegexp.Compile (Trim "/^[0-9]+$/" '/') = none) ∧
    ∃ v err, getValidatedValue goRegexp "/^[0-9]+$/" "n" "4a" = .ok (v, err) :=
  ⟨fun h => Option.noConfusion (h.2 : some _ = none),
   (C18_panic_iff goRegexp "/^[0-9]+$/" "n" "4a").2
     (fun h => Option.noConfusion (h.2 : some _ = none))⟩

/-! ## Which errors `processSchema` returns -/

/-- Every rule that is not a regex rule with an invalid pattern is handled
without a panic. -/
theorem getValidatedValue_returns (L : RegexpLib) (rule key value : String)
    (hn : ¬ (rule.data.head? = some '/' ∧ L.Compile (Trim rule '/') = none)) :
    ∃ v err, getValidatedValue L rule key value = .ok (v, err) := by
  by_cases hne : rule = ""
  · exact ⟨value, none, by rw [hne]; exact getValidatedValue_empty_rule L key value⟩
  · by_cases hfc : rule.data.head? = some '/'
    · cases hc : L.Compile (Trim rule '/') with
      | none => exact absurd ⟨hfc, hc⟩ hn
      | some r =>
        have hs := getValidatedValue_regex L rule key value r hfc hc
        by_cases hr : L.ReplaceAllString r value "" = ""
        · rw [if_pos hr] at hs
          exact ⟨_, _, hs⟩
        · rw [if_neg hr] at hs
          exact ⟨_, _, hs⟩
    · obtain ⟨first, rest, _, he⟩ := getValidatedValue_enum L rule key value hne hfc
      exact ⟨_, _, he⟩

/-- The key the dispatch reads is the residual key. -/
theorem directive_entry_residual (key0 : String) (data : Data) (key : String) (fc : Char)
    (sKey : String) (h : directive key0 data = .entry key fc sKey) :
    (residualKey key0).data = fc :: sKey.data := by
  unfold directive at h
  unfold residualKey
  cases hd : key0.data with
  | nil =>
    rw [hd] at h
    exact Directive.noConfusion h
  | cons c rest =>
    rw [hd] at h
    by_cases hq : c = '?'
    · subst hq
      simp only [if_true] at h
      split at h
      · exact Directive.noConfusion h
      · cases rest with
        | nil => exact Directive.noConfusion h
        | cons c2 rest2 =>
          injection h with _ h2 h3
          simp only [h2, ← h3]
    · simp only [if_neg hq] at h
      injection h with _ h2 h3
      have : ¬ (c = '?') := hq
      split
      · rename_i rest1 heq
        injection heq with e1 _
        exact absurd e1 hq
      · rw [hd, h2, ← h3]

/-- An entry that satisfies the condition of C15 never ends the loop with an
error: the iteration panics, goes on, or breaks with the nil error. -/
theorem loopBody_sound (L : RegexpLib) (key0 : String) (v : SchemaValue) (data : Data)
    (root : Element) (hs : soundEntry key0 v = true) :
    loopBody L key0 v data root = .panic ∨
    (∃ r, loopBody L key0 v data root = .next r) ∨
    loopBody L key0 v data root = .stop root none := by
  rw [loopBody]
  cases hdir : directive key0 data with
  | skip => exact Or.inr (Or.inl ⟨root, rfl⟩)
  | panic => exact Or.inl rfl
  | entry key fc sKey =>
    have hres := directive_entry_residual key0 data key fc sKey hdir
    cases v with
    | other => exact Bool.noConfusion hs
    | str r =>
      simp only []
      by_cases ha : fc = '@'
      · simp only [if_pos ha]
        split
        · exact Or.inl rfl
        · exact Or.inr (Or.inr rfl)
        · exact Or.inr (Or.inl ⟨_, rfl⟩)
      · simp only [if_neg ha]
        split
        · exact Or.inl rfl
        · exact Or.inr (Or.inr rfl)
        · exact Or.inr (Or.inl ⟨_, rfl⟩)
    | map S =>
      simp only []
      by_cases hc : fc = ':'
      · have hlen : (Split sKey ':').length = 2 := by
          unfold soundEntry at hs
          simp only [hres, hc, mk_data] at hs
          exact of_decide_eq_true hs
        obtain ⟨container, item, hsplit⟩ := List.length_eq_two.1 hlen
        simp only [if_pos hc, hsplit]
        split
        · exact Or.inl rfl
        · exact Or.inr (Or.inl ⟨_, rfl⟩)
      · simp only [if_neg hc]
        split
        · exact Or.inl rfl
        · exact Or.inr (Or.inl ⟨_, rfl⟩)

theorem processSchema_sound (L : RegexpLib) (S : Schema) (data : Data) :
    soundTopLevel S = true → ∀ root : Element,
      processSchema L S data root = .panic ∨
      ∃ r, processSchema L S data root = .ok (r, none) := by
  induction S with
  | nil => exact fun _ root => Or.inr ⟨root, rfl⟩
  | cons entry rest ih =>
    obtain ⟨key, v⟩ := entry
    intro hs root
    unfold soundTopLevel at hs
    rw [List.all_cons, Bool.and_eq_true] at hs
    rw [processSchema]
    rcases loopBody_sound L key v data root hs.1 with h | ⟨r, h⟩ | h
    · rw [h]
      exact Or.inl rfl
    · rw [h]
      exact ih hs.2 r
    · rw [h]
      exact Or.inr ⟨root, rfl⟩

theorem directive_ne_panic (key : String) (data : Data) (h1 : key ≠ "") (h2 : key ≠ "?") :
    directive key data ≠ .panic := by
  unfold directive
  cases hd : key.data with
  | nil => exact absurd ((data_nil_iff key).1 hd) h1
  | cons c rest =>
    by_cases hq : c = '?'
    · subst hq
      simp only [if_true]
      split
      · exact fun h => Directive.noConfusion h
      · cases rest with
        | nil =>
          have : key = "?" := by
            rw [← mk_data key, hd]
          exact absurd this h2
        | cons c2 rest2 => exact fun h => Directive.noConfusion h
    · simp only [if_neg hq]
      exact fun h => Directive.noConfusion h

mutual
/-- A guarded schema is walked without a panic. -/
theorem processSchema_guarded (L : RegexpLib) :
    ∀ (S : Schema), guardedSchema L S = true →
      ∀ (data : Data) (root : Element), ∃ r err, processSchema L S data root = .ok (r, err)
  | [], _, _, root => ⟨root, none, rfl⟩
  | (key, v) :: rest, h, data, root => by
    rw [guardedSchema] at h
    simp only [Bool.and_eq_true, decide_eq_true_eq] at h
    have hb := loopBody_guarded L key v h.1.1.1 h.1.1.2 h.1.2 data root
    rw [processSchema]
    cases hl : loopBody L key v data root with
    | next r1 => exact processSchema_guarded L rest h.2 data r1
    | stop r1 err => exact ⟨r1, err, rfl⟩
    | panic => exact absurd hl hb
/-- One iteration on an entry of a guarded schema does not panic. -/
theorem loopBody_guarded (L : RegexpLib) :
    ∀ (key : String) (v : SchemaValue), key ≠ "" → key ≠ "?" → guardedValue L v = true →
      ∀ (data : Data) (root : Element), loopBody L key v data root ≠ .panic
  | key0, .str rule, h1, h2, hv, data, root => by
    rw [loopBody]
    cases hdir : directive key0 data with
    | skip => exact fun h => Step.noConfusion h
    | panic => exact absurd hdir (directive_ne_panic key0 data h1 h2)
    | entry key fc sKey =>
      have hn : ¬ (rule.data.head? = some '/' ∧ L.Compile (Trim rule '/') = none) := by
        rintro ⟨hh, hc⟩
        rw [guardedValue] at hv
        cases hd : rule.data with
        | nil => simp [hd] at hh
        | cons c tl =>
          have hc1 : c = '/' := by simpa [hd] using hh
          rw [hd, hc1] at hv
          simp only [hc] at hv
          exact Bool.noConfusion hv
      simp only []
      by_cases ha : fc = '@'
      · obtain ⟨v1, err, hg⟩ := getValidatedValue_returns L rule key (data.GetString key) hn
        simp only [if_pos ha, hg]
        cases err <;> exact fun h => Step.noConfusion h
      · obtain ⟨v1, err, hg⟩ := getValidatedValue_returns L rule key (data.GetString key) hn
        simp only [if_neg ha, hg]
        cases err <;> exact fun h => Step.noConfusion h
  | key0, .map S, h1, h2, hv, data, root => by
    rw [guardedValue] at hv
    have ih := processSchema_guarded L S hv
    rw [loopBody]
    cases hdir : directive key0 data with
    | skip => exact fun h => Step.noConfusion h
    | panic => exact absurd hdir (directive_ne_panic key0 data h1 h2)
    | entry key fc sKey =>
      simp only []
      by_cases hc : fc = ':'
      · simp only [if_pos hc]
        split
        · rename_i container item _
          obtain ⟨r, hr⟩ := forSlices_total
            (fun slice childRoot => processSchema L S slice childRoot) item ih
            (data.GetObjxMapSlice container) (Element.new container)
          rw [hr]
          exact fun h => Step.noConfusion h
        · exact fun h => Step.noConfusion h
      · obtain ⟨r1, err, h1⟩ := ih (data.GetObjxMap key) (Element.new key)
        simp only [if_neg hc, h1]
        exact fun h => Step.noConfusion h
  | key0, .other, h1, h2, _, data, root => by
    rw [loopBody]
    cases hdir : directive key0 data with
    | skip => exact fun h => Step.noConfusion h
    | panic => exact absurd hdir (directive_ne_panic key0 data h1 h2)
    | entry key fc sKey => exact fun h => Step.noConfusion h
end

/-- C15, as stated, fails. Schemas whose only entry has a rule string as value
make `processSchema` panic instead of returning nil: `{"n": "/(/"}` (the pattern
does not compile) and `{"": ""}` (empty key). And `{"?:onlyone": {}}`, whose key
does not begin with `:`, returns the structural error for a bag in which the
path `:onlyone` is `"x"`. -/
theorem C15_counterexample :
    processSchema goRegexp [("n", .str "/(/")] Data.empty (Element.new "root") = .panic ∧
    processSchema goRegexp [("", .str "")] Data.empty (Element.new "root") = .panic ∧
    processSchema goRegexp [("?:onlyone", .map [])] (Data.ofStrings [(":onlyone", "x")])
        (Element.new "root")
      = .ok (Element.new "root", some "Key of map slice  :onlyone must contain 2 parts") :=
  ⟨rfl, rfl, rfl⟩

/-- C15, amended. For a schema in which every top-level entry has a rule string
or a nested schema as value, and every top-level key with a nested schema that
has the array form (prefix `:`, directly or after `?`) has exactly two segments:
for every data bag `processSchema` never returns an error, it returns nil or
panics, whatever the nested schemas contain and whatever the validations
answer; and it does return nil when, at every depth, no key is empty or a bare
`?` and the pattern of every regex rule compiles. -/
theorem C15_only_top_level_structural_errors (L : RegexpLib) (S : Schema) (data : Data)
    (root : Element) (hs : soundTopLevel S = true) :
    (processSchema L S data root = .panic ∨
      ∃ r, processSchema L S data root = .ok (r, none)) ∧
    (guardedSchema L S = true → ∃ r, processSchema L S data root = .ok (r, none)) := by
  have h1 := processSchema_sound L S data hs root
  refine ⟨h1, fun hg => ?_⟩
  obtain ⟨r, err, hr⟩ := processSchema_guarded L S hg data root
  rcases h1 with hp | hok
  · rw [hr] at hp
    exact Result.noConfusion hp
  · exact hok

/-- Witness of the amended C15: a nested schema with a malformed array key and an
invalid schema value, and a regex rule that rejects its value; `processSchema`
returns nil. -/
theorem C15_only_top_level_structural_errors_witness :
    (soundTopLevel [("a", .map [(":onlyone", .map []), ("b", .other)]),
        ("n", .str "/^[0-9]+$/")] = true ∧
      guardedSchema goRegexp [("a", .map [(":onlyone", .map []), ("b", .other)]),
        ("n", .str "/^[0-9]+$/")] = true) ∧
    ((processSchema goRegexp
          [("a", .map [(":onlyone", .map []), ("b", .other)]), ("n", .str "/^[0-9]+$/")]
          (Data.ofStrings [("n", "4a")]) (Element.new "root") = .panic ∨
        ∃ r, processSchema goRegexp
          [("a", .map [(":onlyone", .map []), ("b", .other)]), ("n", .str "/^[0-9]+$/")]
          (Data.ofStrings [("n", "4a")]) (Element.new "root") = .ok (r, none)) ∧
      (guardedSchema goRegexp [("a", .map [(":onlyone", .map []), ("b", .other)]),
          ("n", .str "/^[0-9]+$/")] = true →
        ∃ r, processSchema goRegexp
          [("a", .map [(":onlyone", .map []), ("b", .other)]), ("n", .str "/^[0-9]+$/")]
          (Data.ofStrings [("n", "4a")]) (Element.new "root") = .ok (r, none))) :=
  ⟨⟨by decide, by rfl⟩,
   C15_only_top_level_structural_errors goRegexp
     [("a", .map [(":onlyone", .map []), ("b", .other)]), ("n", .str "/^[0-9]+$/")]
     (Data.ofStrings [("n", "4a")]) (Element.new "root") (by decide)⟩

/-! ## Trees up to the order of siblings -/

mutual
theorem sameTree_refl : ∀ e : Element, SameTree e e
  | .mk tag _ text child => SameTree.mk tag text (List.Perm.refl _) (sameForest_refl child)
theorem sameForest_refl : ∀ l : List Element, SameForest l l
  | [] => .nil
  | e :: l => .cons (sameTree_refl e) (sameForest_refl l)
end

theorem sameTree_trans {a b c : Element} (h1 : SameTree a b) (h2 : SameTree b c) :
    SameTree a c := by
  cases h1 with
  | mk tag text hp hf =>
    cases h2 with
    | mk _ _ hp2 hf2 => exact SameTree.mk tag text (hp.trans hp2) (hf.trans hf2)

theorem sameForest_append_right {c d : List Element} (h : SameForest c d)
    (l : List Element) : SameForest (c ++ l) (d ++ l) := by
  refine @SameForest.rec (fun _ _ _ => True) (fun c d _ => SameForest (c ++ l) (d ++ l))
    ?_ ?_ ?_ ?_ ?_ c d h
  · intros; trivial
  · exact sameForest_refl l
  · intro e f c d he _ _ ih
    exact SameForest.cons he ih
  · intro e f c
    exact SameForest.swap e f (c ++ l)
  · intro c d g _ _ ih1 ih2
    exact ih1.trans ih2

theorem sameForest_append_left (c : List Element) {l m : List Element}
    (h : SameForest l m) : SameForest (c ++ l) (c ++ m) := by
  induction c with
  | nil => exact h
  | cons e c ih => exact SameForest.cons (sameTree_refl e) ih

theorem sameForest_append {c d l m : List Element} (h1 : SameForest c d)
    (h2 : SameForest l m) : SameForest (c ++ l) (d ++ m) :=
  SameForest.trans (sameForest_append_right h1 l) (sameForest_append_left d h2)

theorem sameForest_of_forall₂ {c d : List Element} (h : List.Forall₂ SameTree c d) :
    SameForest c d := by
  induction h with
  | nil => exact .nil
  | cons h1 _ ih => exact .cons h1 ih

theorem attrKeys_perm {r1 r2 : Element} (h : SameTree r1 r2) :
    r1.attrKeys.Perm r2.attrKeys := by
  cases h with
  | mk tag text hp hf => exact hp.map _

theorem setAttr_fresh (attr : List (String × String)) (key value : String)
    (h : key ∉ attr.map Prod.fst) : Element.setAttr attr key value = attr ++ [(key, value)] := by
  induction attr with
  | nil => rfl
  | cons a attr ih =>
    obtain ⟨k, v⟩ := a
    have hk : k ≠ key := fun e => h (by simp [e])
    have ht : key ∉ attr.map Prod.fst := fun m => h (by simp at m ⊢; exact Or.inr m)
    rw [Element.setAttr, if_neg hk, ih ht]
    rfl

theorem mem_attrKeys_setAttr (attr : List (String × String)) (key value m : String)
    (h : m ∈ (Element.setAttr attr key value).map Prod.fst) :
    m ∈ attr.map Prod.fst ∨ m = key := by
  induction attr with
  | nil =>
    simp [Element.setAttr] at h
    exact Or.inr h
  | cons a attr ih =>
    obtain ⟨k, v⟩ := a
    rw [Element.setAttr] at h
    by_cases hk : k = key
    · rw [if_pos hk] at h
      exact Or.inl (by simpa using h)
    · rw [if_neg hk] at h
      simp only [List.map_cons, List.mem_cons] at h ⊢
      rcases h with h | h
      · exact Or.inl (Or.inl h)
      · rcases ih h with h1 | h1
        · exact Or.inl (Or.inr h1)
        · exact Or.inr h1

/-- An effect adds at most its own attribute name to the element. -/
theorem mem_attrKeys_apply (e : Effect) (root : Element) (m : String)
    (h : m ∈ (e.apply root).attrKeys) : m ∈ root.attrKeys ∨ ∃ value, e = .attr m value := by
  cases root with
  | mk tag attr text child =>
    cases e with
    | skip => exact Or.inl h
    | child c => exact Or.inl h
    | attr name value =>
      rcases mem_attrKeys_setAttr attr name value m h with h1 | h1
      · exact Or.inl h1
      · exact Or.inr ⟨value, by rw [h1]⟩

/-- The same effect on the same trees gives the same trees. -/
theorem sameTree_apply {e1 e2 : Effect} {r1 r2 : Element} (he : Effect.Same e1 e2)
    (hr : SameTree r1 r2) (hf : ∀ name value, e1 = .attr name value → name ∉ r1.attrKeys) :
    SameTree (e1.apply r1) (e2.apply r2) := by
  have hkeys := attrKeys_perm hr
  cases hr with
  | mk tag text hp hc =>
    rename_i attr1 attr2 child1 child2
    cases e1 with
    | skip =>
      cases e2 with
      | skip => exact SameTree.mk tag text hp hc
      | child d => exact False.elim he
      | attr n v => exact False.elim he
    | child c =>
      cases e2 with
      | skip => exact False.elim he
      | child d =>
        exact SameTree.mk tag text hp
          (sameForest_append hc (SameForest.cons he SameForest.nil))
      | attr n v => exact False.elim he
    | attr name value =>
      cases e2 with
      | skip => exact False.elim he
      | child d => exact False.elim he
      | attr n v =>
        obtain ⟨hn, hv⟩ := he
        subst hn
        subst hv
        have h1 : name ∉ attr1.map Prod.fst := hf name value rfl
        have h2 : name ∉ attr2.map Prod.fst := fun m => h1 (hkeys.symm.subset m)
        show SameTree (Element.mk tag (Element.setAttr attr1 name value) text child1)
          (Element.mk tag (Element.setAttr attr2 name value) text child2)
        rw [setAttr_fresh attr1 name value h1, setAttr_fresh attr2 name value h2]
        exact SameTree.mk tag text (hp.append_right _) hc

/-- Two effects that do not write the same attribute commute, up to the order
of siblings. -/
theorem sameTree_commute (e1 e2 : Effect) (root : Element)
    (h1 : ∀ name value, e1 = .attr name value → name ∉ root.attrKeys)
    (h2 : ∀ name value, e2 = .attr name value → name ∉ root.attrKeys)
    (hne : ∀ name value name2 value2, e1 = .attr name value → e2 = .attr name2 value2 →
      name ≠ name2) :
    SameTree (e2.apply (e1.apply root)) (e1.apply (e2.apply root)) := by
  cases root with
  | mk tag attr text child =>
    cases e1 with
    | skip => exact sameTree_refl _
    | child c =>
      cases e2 with
      | skip => exact sameTree_refl _
      | child d =>
        show SameTree (Element.mk tag attr text ((child ++ [c]) ++ [d]))
          (Element.mk tag attr text ((child ++ [d]) ++ [c]))
        rw [List.append_assoc, List.append_assoc]
        exact SameTree.mk tag text (List.Perm.refl _)
          (sameForest_append_left child (SameForest.swap c d []))
      | attr n v => exact sameTree_refl _
    | attr name value =>
      cases e2 with
      | skip => exact sameTree_refl _
      | child d => exact sameTree_refl _
      | attr n v =>
        have f1 : name ∉ attr.map Prod.fst := h1 name value rfl
        have f2 : n ∉ attr.map Prod.fst := h2 n v rfl
        have hd : name ≠ n := hne name value n v rfl rfl
        show SameTree
          (Element.mk tag (Element.setAttr (Element.setAttr attr name value) n v) text child)
          (Element.mk tag (Element.setAttr (Element.setAttr attr n v) name value) text child)
        have g1 : n ∉ (attr ++ [(name, value)]).map Prod.fst := by
          simp only [List.map_append, List.map_cons, List.map_nil, List.mem_append,
            List.mem_singleton, not_or]
          exact ⟨f2, fun e => hd e.symm⟩
        have g2 : name ∉ (attr ++ [(n, v)]).map Prod.fst := by
          simp only [List.map_append, List.map_cons, List.map_nil, List.mem_append,
            List.mem_singleton, not_or]
          exact ⟨f1, hd⟩
        rw [setAttr_fresh attr name value f1, setAttr_fresh attr n v f2,
          setAttr_fresh _ n v g1, setAttr_fresh _ name value g2, List.append_assoc,
          List.append_assoc]
        exact SameTree.mk tag text
          (List.Perm.append_left attr (List.Perm.swap _ _ [])) (sameForest_refl child)

/-! ## Iterations that go on -/

theorem attrName_of_directive (key0 : String) (data : Data) (key sKey : String)
    (h : directive key0 data = .entry key '@' sKey) : attrName key0 = some sKey := by
  have hres := directive_entry_residual key0 data key '@' sKey h
  unfold attrName
  rw [hres]
  show some (String.mk sKey.data) = some sKey
  rw [mk_data]

theorem effect_same_refl (e : Effect) : Effect.Same e e := by
  cases e with
  | skip => exact True.intro
  | child c => exact sameTree_refl c
  | attr name value => exact ⟨rfl, rfl⟩

theorem entryAgree_str (L : RegexpLib) (rule : String) :
    EntryAgree L (.str rule) (.str rule) := by
  refine ⟨fun h => h, fun key0 data hq _ => ⟨hq, ?_⟩⟩
  rw [quietEntry] at hq
  cases hdir : directive key0 data with
  | skip =>
    refine ⟨.skip, .skip, ?_, ?_, True.intro, fun _ _ h => Effect.noConfusion h⟩
    · intro root
      rw [loopBody, hdir]
      rfl
    · intro root
      rw [loopBody, hdir]
      rfl
  | panic =>
    rw [hdir] at hq
    exact Bool.noConfusion hq
  | entry key fc sKey =>
    rw [hdir] at hq
    simp only [] at hq
    cases hg : getValidatedValue L rule key (data.GetString key) with
    | panic =>
      rw [hg] at hq
      exact Bool.noConfusion hq
    | ok res =>
      obtain ⟨value, err⟩ := res
      cases err with
      | some e =>
        rw [hg] at hq
        exact Bool.noConfusion hq
      | none =>
        by_cases ha : fc = '@'
        · subst ha
          have hb : ∀ root, loopBody L key0 (.str rule) data root
              = .next ((Effect.attr sKey value).apply root) := by
            intro root
            rw [loopBody, hdir]
            simp only [if_true, hg]
            rfl
          refine ⟨.attr sKey value, .attr sKey value, hb, hb, ⟨rfl, rfl⟩, ?_⟩
          intro name v h
          injection h with h1 _
          rw [← h1]
          exact attrName_of_directive key0 data key sKey hdir
        · have hb : ∀ root, loopBody L key0 (.str rule) data root
              = .next ((Effect.child (Element.mk key [] value [])).apply root) := by
            intro root
            rw [loopBody, hdir]
            simp only [if_neg ha, hg]
            rfl
          exact ⟨_, _, hb, hb, sameTree_refl _, fun _ _ h => Effect.noConfusion h⟩

theorem entryAgree_other (L : RegexpLib) : EntryAgree L .other .other := by
  refine ⟨fun h => h, fun key0 data hq _ => ⟨hq, ?_⟩⟩
  rw [quietEntry] at hq
  cases hdir : directive key0 data with
  | skip =>
    refine ⟨.skip, .skip, ?_, ?_, True.intro, fun _ _ h => Effect.noConfusion h⟩
    · intro root
      rw [loopBody, hdir]
      rfl
    · intro root
      rw [loopBody, hdir]
      rfl
  | panic =>
    rw [hdir] at hq
    exact Bool.noConfusion hq
  | entry key fc sKey =>
    rw [hdir] at hq
    exact Bool.noConfusion hq

theorem fresh_new (S : Schema) (tag : String) (h : (attrNames S).Nodup) :
    Fresh S (Element.new tag) :=
  ⟨h, fun _ _ hm => by cases hm⟩

/-- The children that the nested walks of two agreeing schemas build for a
list of records. -/
theorem forSlices_agree (L : RegexpLib) (S T : Schema) (item : String)
    (hST : WalkAgree L S T) (hd : distinctAttrsValue (.map S) = true) :
    ∀ (dataSlice : List Data),
      dataSlice.all (fun slice => quietSchema L S slice) = true →
      dataSlice.all (fun slice => quietSchema L T slice) = true ∧
      ∃ cs1 cs2,
        List.Forall₂ (fun record child =>
          ∃ err, processSchema L S record (Element.new item) = .ok (child, err))
          dataSlice cs1 ∧
        List.Forall₂ (fun record child =>
          ∃ err, processSchema L T record (Element.new item) = .ok (child, err))
          dataSlice cs2 ∧
        List.Forall₂ SameTree cs1 cs2 := by
  rw [distinctAttrsValue, Bool.and_eq_true, decide_eq_true_eq] at hd
  intro dataSlice
  induction dataSlice with
  | nil => exact fun _ => ⟨rfl, [], [], .nil, .nil, .nil⟩
  | cons slice rest ih =>
    intro hq
    rw [List.all_cons, Bool.and_eq_true] at hq
    obtain ⟨hqT, cs1, cs2, h1, h2, h3⟩ := ih hq.2
    obtain ⟨hqs, hw⟩ := hST.2.2 slice hq.1 hd.2
    obtain ⟨t1, t2, w1, w2, hs⟩ :=
      hw (Element.new item) (Element.new item) (sameTree_refl _) (fresh_new S item hd.1)
    refine ⟨by rw [List.all_cons, hqs, hqT]; rfl, t1 :: cs1, t2 :: cs2, ?_, ?_, ?_⟩
    · exact .cons ⟨none, processSchema_of_walkThrough L S slice _ t1 w1⟩ h1
    · exact .cons ⟨none, processSchema_of_walkThrough L T slice _ t2 w2⟩ h2
    · exact .cons hs h3

theorem entryAgree_map (L : RegexpLib) (S T : Schema) (hST : WalkAgree L S T) :
    EntryAgree L (.map S) (.map T) := by
  have hstatic : distinctAttrsValue (.map S) = true → distinctAttrsValue (.map T) = true := by
    intro h
    rw [distinctAttrsValue, Bool.and_eq_true, decide_eq_true_eq] at h ⊢
    exact ⟨(hST.1.nodup_iff).1 h.1, hST.2.1 h.2⟩
  refine ⟨hstatic, fun key0 data hq hd => ?_⟩
  have hd2 := hd
  rw [distinctAttrsValue, Bool.and_eq_true, decide_eq_true_eq] at hd2
  rw [quietEntry] at hq
  rw [quietEntry]
  cases hdir : directive key0 data with
  | skip =>
    refine ⟨rfl, .skip, .skip, ?_, ?_, True.intro, fun _ _ h => Effect.noConfusion h⟩
    · intro root
      rw [loopBody, hdir]
      rfl
    · intro root
      rw [loopBody, hdir]
      rfl
  | panic =>
    rw [hdir] at hq
    exact Bool.noConfusion hq
  | entry key fc sKey =>
    rw [hdir] at hq
    simp only [] at hq ⊢
    by_cases hc : fc = ':'
    · simp only [if_pos hc] at hq ⊢
      cases hsplit : Split sKey ':' with
      | nil =>
        rw [hsplit] at hq
        exact Bool.noConfusion hq
      | cons container tl =>
        cases tl with
        | nil =>
          rw [hsplit] at hq
          exact Bool.noConfusion hq
        | cons item tl2 =>
          cases tl2 with
          | cons x y =>
            rw [hsplit] at hq
            exact Bool.noConfusion hq
          | nil =>
            rw [hsplit] at hq
            simp only [] at hq ⊢
            obtain ⟨hqT, cs1, cs2, h1, h2, h3⟩ :=
              forSlices_agree L S T item hST hd (data.GetObjxMapSlice container) hq
            refine ⟨hqT, .child (Element.mk container [] "" cs1),
              .child (Element.mk container [] "" cs2), ?_, ?_, ?_,
              fun _ _ h => Effect.noConfusion h⟩
            · intro root
              rw [loopBody, hdir]
              simp only [if_pos hc, hsplit]
              have := forSlices_ok (fun slice childRoot => processSchema L S slice childRoot)
                item (data.GetObjxMapSlice container) cs1 h1 container [] "" []
              rw [Element.new, this]
              rfl
            · intro root
              rw [loopBody, hdir]
              simp only [if_pos hc, hsplit]
              have := forSlices_ok (fun slice childRoot => processSchema L T slice childRoot)
                item (data.GetObjxMapSlice container) cs2 h2 container [] "" []
              rw [Element.new, this]
              rfl
            · exact SameTree.mk container "" (List.Perm.refl _) (sameForest_of_forall₂ h3)
    · simp only [if_neg hc] at hq ⊢
      obtain ⟨hqT, hw⟩ := hST.2.2 (data.GetObjxMap key) hq hd2.2
      obtain ⟨t1, t2, w1, w2, hs⟩ :=
        hw (Element.new key) (Element.new key) (sameTree_refl _) (fresh_new S key hd2.1)
      refine ⟨hqT, .child t1, .child t2, ?_, ?_, hs, fun _ _ h => Effect.noConfusion h⟩
      · intro root
        rw [loopBody, hdir]
        simp only [if_neg hc, processSchema_of_walkThrough L S _ _ t1 w1]
        rfl
      · intro root
        rw [loopBody, hdir]
        simp only [if_neg hc, processSchema_of_walkThrough L T _ _ t2 w2]
        rfl

/-! ## Walks in two orders -/

theorem attrNames_cons (key : String) (v : SchemaValue) (S : Schema) :
    attrNames ((key, v) :: S) = (attrName key).toList ++ attrNames S := by
  unfold attrNames
  rw [List.filterMap_cons]
  cases attrName key <;> rfl

theorem mem_attrKeys_setAttr_self (attr : List (String × String)) (key value : String) :
    key ∈ (Element.setAttr attr key value).map Prod.fst := by
  induction attr with
  | nil => simp [Element.setAttr]
  | cons a attr ih =>
    obtain ⟨k, v⟩ := a
    rw [Element.setAttr]
    by_cases hk : k = key
    · rw [if_pos hk]
      simp [hk]
    · rw [if_neg hk]
      exact List.mem_cons_of_mem _ ih

theorem walkAgree_nil (L : RegexpLib) : WalkAgree L [] [] :=
  ⟨List.Perm.refl _, fun h => h, fun _ _ _ => ⟨rfl, fun r1 r2 h _ => ⟨r1, r2, rfl, rfl, h⟩⟩⟩

/-- After an iteration for the first key, the remaining keys still name fresh
attributes. -/
theorem fresh_step (key : String) (v : SchemaValue) (S : Schema) (root : Element)
    (e : Effect) (hf : Fresh ((key, v) :: S) root)
    (he : ∀ name value, e = .attr name value → attrName key = some name) :
    (∀ name value, e = .attr name value → name ∉ root.attrKeys) ∧ Fresh S (e.apply root) := by
  obtain ⟨hnd, hfr⟩ := hf
  rw [attrNames_cons] at hnd hfr
  refine ⟨fun name value h => ?_, ?_, fun n hn hm => ?_⟩
  · apply hfr name
    rw [he name value h]
    simp
  · exact (List.nodup_append.1 hnd).2.1
  · rcases mem_attrKeys_apply e root n hm with h1 | ⟨value, h1⟩
    · exact hfr n (List.mem_append_right _ hn) h1
    · have hk := he n value h1
      rw [hk] at hnd
      have := (List.nodup_append.1 hnd).2.2
      exact this (by simp) hn

theorem walkAgree_cons (L : RegexpLib) (key : String) (v w : SchemaValue) (S T : Schema)
    (hv : EntryAgree L v w) (hS : WalkAgree L S T) :
    WalkAgree L ((key, v) :: S) ((key, w) :: T) := by
  refine ⟨?_, ?_, ?_⟩
  · rw [attrNames_cons, attrNames_cons]
    exact List.Perm.append_left _ hS.1
  · intro h
    rw [distinctAttrsBelow, Bool.and_eq_true] at h ⊢
    exact ⟨hv.1 h.1, hS.2.1 h.2⟩
  · intro data hq hd
    rw [quietSchema, Bool.and_eq_true] at hq
    rw [distinctAttrsBelow, Bool.and_eq_true] at hd
    obtain ⟨hqw, e1, e2, h1, h2, hsame, hname⟩ := hv.2 key data hq.1 hd.1
    obtain ⟨hqT, hw⟩ := hS.2.2 data hq.2 hd.2
    refine ⟨by rw [quietSchema, hqw, hqT]; rfl, fun r1 r2 hr hf => ?_⟩
    obtain ⟨hfe, hfS⟩ := fresh_step key v S r1 e1 hf hname
    obtain ⟨t1, t2, w1, w2, hs⟩ := hw (e1.apply r1) (e2.apply r2) (sameTree_apply hsame hr hfe) hfS
    exact ⟨t1, t2, by rw [walkThrough, h1]; exact w1, by rw [walkThrough, h2]; exact w2, hs⟩

theorem walkAgree_swap (L : RegexpLib) (key1 key2 : String) (v1 w1 v2 w2 : SchemaValue)
    (S T : Schema) (hv1 : EntryAgree L v1 w1) (hv2 : EntryAgree L v2 w2)
    (hS : WalkAgree L S T) :
    WalkAgree L ((key1, v1) :: (key2, v2) :: S) ((key2, w2) :: (key1, w1) :: T) := by
  refine ⟨?_, ?_, ?_⟩
  · rw [attrNames_cons, attrNames_cons, attrNames_cons, attrNames_cons,
      ← List.append_assoc, ← List.append_assoc]
    exact List.Perm.append List.perm_append_comm hS.1
  · intro h
    rw [distinctAttrsBelow, distinctAttrsBelow, Bool.and_eq_true, Bool.and_eq_true] at h ⊢
    exact ⟨hv2.1 h.2.1, hv1.1 h.1, hS.2.1 h.2.2⟩
  · intro data hq hd
    rw [quietSchema, quietSchema, Bool.and_eq_true, Bool.and_eq_true] at hq
    rw [distinctAttrsBelow, distinctAttrsBelow, Bool.and_eq_true, Bool.and_eq_true] at hd
    obtain ⟨hq1, e1, f1, a1, b1, same1, name1⟩ := hv1.2 key1 data hq.1 hd.1
    obtain ⟨hq2, e2, f2, a2, b2, same2, name2⟩ := hv2.2 key2 data hq.2.1 hd.2.1
    obtain ⟨hqT, hw⟩ := hS.2.2 data hq.2.2 hd.2.2
    refine ⟨by rw [quietSchema, quietSchema, hq1, hq2, hqT]; rfl, fun r1 r2 hr hf => ?_⟩
    obtain ⟨hfe1, hf1⟩ := fresh_step key1 v1 _ r1 e1 hf name1
    obtain ⟨hfe2, hf2⟩ := fresh_step key2 v2 S (e1.apply r1) e2 hf1 name2
    -- the names written by the two entries differ and are fresh in `r1`
    have hne : ∀ name value name2 value2, e1 = .attr name value → e2 = .attr name2 value2 →
        name ≠ name2 := by
      intro name value n2 val2 h1 h2 heq
      apply hfe2 n2 val2 h2
      rw [h1, ← heq]
      cases r1 with
      | mk tag attr text child => exact mem_attrKeys_setAttr_self attr name value
    have hfe2' : ∀ name value, e2 = .attr name value → name ∉ r1.attrKeys := by
      intro name value h hm
      apply hf.2 name _ hm
      rw [attrNames_cons, attrNames_cons, name2 name value h]
      simp
    have hfe1' : ∀ name value, e1 = .attr name value → name ∉ (e2.apply r1).attrKeys := by
      intro name value h hm
      rcases mem_attrKeys_apply e2 r1 name hm with h1 | ⟨val2, h1⟩
      · exact hfe1 name value h h1
      · exact hne name value name val2 h h1 rfl
    have step1 : SameTree (e2.apply (e1.apply r1)) (e1.apply (e2.apply r1)) :=
      sameTree_commute e1 e2 r1 hfe1 hfe2' hne
    have step2 : SameTree (e1.apply (e2.apply r1)) (f1.apply (f2.apply r2)) :=
      sameTree_apply same1 (sameTree_apply same2 hr hfe2') hfe1'
    obtain ⟨t1, t2, w1', w2', hs⟩ :=
      hw (e2.apply (e1.apply r1)) (f1.apply (f2.apply r2)) (sameTree_trans step1 step2) hf2
    exact ⟨t1, t2, by simp only [walkThrough, a1, a2]; exact w1',
      by simp only [walkThrough, b2, b1]; exact w2', hs⟩

theorem walkAgree_trans (L : RegexpLib) (S T U : Schema) (hST : WalkAgree L S T)
    (hTU : WalkAgree L T U) : WalkAgree L S U := by
  refine ⟨hST.1.trans hTU.1, fun h => hTU.2.1 (hST.2.1 h), fun data hq hd => ?_⟩
  obtain ⟨hqT, hw1⟩ := hST.2.2 data hq hd
  obtain ⟨hqU, hw2⟩ := hTU.2.2 data hqT (hST.2.1 hd)
  refine ⟨hqU, fun r1 r2 hr hf => ?_⟩
  have hfT : Fresh T r1 :=
    ⟨(hST.1.nodup_iff).1 hf.1, fun n hn => hf.2 n (hST.1.symm.subset hn)⟩
  obtain ⟨t1, tT, w1, wT, hs1⟩ := hw1 r1 r1 (sameTree_refl r1) hf
  obtain ⟨tT', t2, wT', w2, hs2⟩ := hw2 r1 r2 hr hfT
  rw [wT] at wT'
  injection wT' with heq
  rw [← heq] at hs2
  exact ⟨t1, t2, w1, w2, sameTree_trans hs1 hs2⟩

/-- Walks of the same schema in two iteration orders agree. -/
theorem walkAgree_of_perm (L : RegexpLib) {S T : Schema} (h : SchemaPerm S T) :
    WalkAgree L S T :=
  @SchemaPerm.rec (fun S T _ => WalkAgree L S T) (fun v w _ => EntryAgree L v w)
    (walkAgree_nil L)
    (fun key _ _ _ _ _ _ hv hS => walkAgree_cons L key _ _ _ _ hv hS)
    (fun key1 key2 _ _ _ _ _ _ _ _ _ hv1 hv2 hS =>
      walkAgree_swap L key1 key2 _ _ _ _ _ _ hv1 hv2 hS)
    (fun _ _ h1 h2 => walkAgree_trans L _ _ _ h1 h2)
    (fun rule => entryAgree_str L rule)
    (fun _ hS => entryAgree_map L _ _ hS)
    (entryAgree_other L) S T h

/-- Iterations for the same entry in two iteration orders of its nested schema
agree. -/
theorem entryAgree_of_perm (L : RegexpLib) {v w : SchemaValue} (h : ValuePerm v w) :
    EntryAgree L v w := by
  cases h with
  | str rule => exact entryAgree_str L rule
  | map hS => exact entryAgree_map L _ _ (walkAgree_of_perm L hS)
  | other => exact entryAgree_other L

/-! ## Structural faults at the top level -/

mutual
theorem schemaPerm_refl : ∀ S : Schema, SchemaPerm S S
  | [] => .nil
  | (key, v) :: S => .cons key (valuePerm_refl v) (schemaPerm_refl S)
theorem valuePerm_refl : ∀ v : SchemaValue, ValuePerm v v
  | .str rule => .str rule
  | .map S => .map (schemaPerm_refl S)
  | .other => .other
end

theorem loopBody_faulty (L : RegexpLib) (key0 : String) (v : SchemaValue) (data : Data)
    (h : faultyEntry key0 v data = true) :
    ∃ e, ∀ root, loopBody L key0 v data root = .stop root (some e) := by
  unfold faultyEntry at h
  cases hdir : directive key0 data with
  | skip =>
    rw [hdir] at h
    exact Bool.noConfusion h
  | panic =>
    rw [hdir] at h
    exact Bool.noConfusion h
  | entry key fc sKey =>
    rw [hdir] at h
    cases v with
    | str rule => exact Bool.noConfusion h
    | other =>
      exact ⟨"Expects string schema for " ++ key, fun root => by rw [loopBody, hdir]⟩
    | map S =>
      simp only [Bool.and_eq_true, decide_eq_true_eq] at h
      refine ⟨"Key of map slice  " ++ key ++ " must contain 2 parts", fun root => ?_⟩
      rw [loopBody, hdir]
      simp only [if_pos h.1]
      split
      · rename_i container item heq
        rw [heq] at h
        exact absurd rfl h.2
      · rfl

theorem faultyEntry_perm {v w : SchemaValue} (h : ValuePerm v w) (key : String)
    (data : Data) : faultyEntry key v data = faultyEntry key w data := by
  cases h <;> rfl

/-- A steady schema either contains a structurally faulty top-level entry, and
the walk returns an error, or is quiet. -/
theorem processSchema_steady (L : RegexpLib) (data : Data) (S : Schema) :
    distinctAttrsBelow S = true → steadySchema L S data = true →
      (S.any (fun entry => faultyEntry entry.1 entry.2 data) = true →
        ∀ root, ∃ r e, processSchema L S data root = .ok (r, some e)) ∧
      (S.any (fun entry => faultyEntry entry.1 entry.2 data) = false →
        quietSchema L S data = true) := by
  induction S with
  | nil =>
    intro _ _
    exact ⟨fun h => Bool.noConfusion h, fun _ => rfl⟩
  | cons entry rest ih =>
    obtain ⟨key, v⟩ := entry
    intro hd hs
    rw [distinctAttrsBelow, Bool.and_eq_true] at hd
    unfold steadySchema at hs ih
    rw [List.all_cons, Bool.and_eq_true] at hs
    obtain ⟨ih1, ih2⟩ := ih hd.2 hs.2
    rw [List.any_cons]
    cases hf : faultyEntry key v data with
    | true =>
      refine ⟨fun _ root => ?_, fun h => by simp at h⟩
      obtain ⟨e, he⟩ := loopBody_faulty L key v data hf
      exact ⟨root, e, by rw [processSchema, he root]⟩
    | false =>
      have hq : quietEntry L key v data = true := by
        have := hs.1
        simp only [hf, Bool.or_false] at this
        exact this
      obtain ⟨_, e1, _, h1, _, _, _⟩ :=
        (entryAgree_of_perm L (valuePerm_refl v)).2 key data hq hd.1
      refine ⟨fun h root => ?_, fun h => ?_⟩
      · rw [Bool.false_or] at h
        obtain ⟨r, e, hr⟩ := ih1 h (e1.apply root)
        exact ⟨r, e, by rw [processSchema, h1 root]; exact hr⟩
      · rw [Bool.false_or] at h
        rw [quietSchema, hq, ih2 h]
        rfl

/-- Steadiness and the presence of a structurally faulty top-level entry do not
depend on the iteration order. -/
theorem steady_of_perm (L : RegexpLib) {S T : Schema} (h : SchemaPerm S T) :
    ∀ data, distinctAttrsBelow S = true →
      (steadySchema L S data = true → steadySchema L T data = true) ∧
      S.any (fun entry => faultyEntry entry.1 entry.2 data)
        = T.any (fun entry => faultyEntry entry.1 entry.2 data) := by
  refine @SchemaPerm.rec
    (fun S T _ => ∀ data, distinctAttrsBelow S = true →
      (steadySchema L S data = true → steadySchema L T data = true) ∧
      S.any (fun entry => faultyEntry entry.1 entry.2 data)
        = T.any (fun entry => faultyEntry entry.1 entry.2 data))
    (fun _ _ _ => True) ?_ ?_ ?_ ?_ ?_ ?_ ?_ S T h
  · exact fun _ _ => ⟨fun h => h, rfl⟩
  · intro key v w S T hv _ _ ih data hd
    rw [distinctAttrsBelow, Bool.and_eq_true] at hd
    obtain ⟨ih1, ih2⟩ := ih data hd.2
    refine ⟨fun hs => ?_, ?_⟩
    · unfold steadySchema at hs ih1 ⊢
      rw [List.all_cons, Bool.and_eq_true] at hs ⊢
      refine ⟨?_, ih1 hs.2⟩
      show (quietEntry L key w data || faultyEntry key w data) = true
      rw [← faultyEntry_perm hv key data]
      cases hf : faultyEntry key v data with
      | true => rw [Bool.or_true]
      | false =>
        have hq : quietEntry L key v data = true := by
          have := hs.1
          simp only [hf, Bool.or_false] at this
          exact this
        rw [((entryAgree_of_perm L hv).2 key data hq hd.1).1]
        rfl
    · rw [List.any_cons, List.any_cons, ih2]
      show (faultyEntry key v data || _) = (faultyEntry key w data || _)
      rw [faultyEntry_perm hv key data]
  · intro key1 key2 v1 w1 v2 w2 S T hv1 hv2 _ _ _ ih data hd
    rw [distinctAttrsBelow, distinctAttrsBelow, Bool.and_eq_true, Bool.and_eq_true] at hd
    obtain ⟨ih1, ih2⟩ := ih data hd.2.2
    have q1 : (quietEntry L key1 v1 data || faultyEntry key1 v1 data) = true →
        (quietEntry L key1 w1 data || faultyEntry key1 w1 data) = true := by
      intro hs
      rw [← faultyEntry_perm hv1 key1 data]
      cases hf : faultyEntry key1 v1 data with
      | true => rw [Bool.or_true]
      | false =>
        rw [hf, Bool.or_false] at hs
        rw [((entryAgree_of_perm L hv1).2 key1 data hs hd.1).1]
        rfl
    have q2 : (quietEntry L key2 v2 data || faultyEntry key2 v2 data) = true →
        (quietEntry L key2 w2 data || faultyEntry key2 w2 data) = true := by
      intro hs
      rw [← faultyEntry_perm hv2 key2 data]
      cases hf : faultyEntry key2 v2 data with
      | true => rw [Bool.or_true]
      | false =>
        rw [hf, Bool.or_false] at hs
        rw [((entryAgree_of_perm L hv2).2 key2 data hs hd.2.1).1]
        rfl
    refine ⟨fun hs => ?_, ?_⟩
    · unfold steadySchema at hs ih1 ⊢
      rw [List.all_cons, List.all_cons, Bool.and_eq_true, Bool.and_eq_true] at hs ⊢
      exact ⟨q2 hs.2.1, q1 hs.1, ih1 hs.2.2⟩
    · rw [List.any_cons, List.any_cons, List.any_cons, List.any_cons, ih2]
      show (faultyEntry key1 v1 data || (faultyEntry key2 v2 data || _))
        = (faultyEntry key2 w2 data || (faultyEntry key1 w1 data || _))
      rw [faultyEntry_perm hv1 key1 data, faultyEntry_perm hv2 key2 data,
        ← Bool.or_assoc, ← Bool.or_assoc,
        Bool.or_comm (faultyEntry key1 w1 data) (faultyEntry key2 w2 data)]
  · intro S T U hST _ ih1 ih2 data hd
    obtain ⟨a1, a2⟩ := ih1 data hd
    obtain ⟨b1, b2⟩ := ih2 data ((walkAgree_of_perm L hST).2.1 hd)
    exact ⟨fun hs => b1 (a1 hs), a2.trans b2⟩
  · intros; trivial
  · intros; trivial
  · trivial

/-! ## Iteration order -/

/-- C11, as stated, fails. For the entries `n` (a regex rule that rejects the
value `4a`) and `bad` (a value that is neither a rule nor a schema), `Process`
succeeds when `n` is visited first and returns an error when `bad` is visited
first; for the entries `n` and `a`, both orders succeed but only one tree
contains the element `a`; for the entries `@id` and `?@id` with different
rules, both orders succeed and the attribute `id` ends with different values. -/
theorem C11_counterexample :
    (SchemaPerm [("n", .str "/^[0-9]+$/"), ("bad", .other)]
        [("bad", .other), ("n", .str "/^[0-9]+$/")] ∧
      Process goRegexp renderXml
          (XmlBuilder.mk "" "root" [("n", .str "/^[0-9]+$/"), ("bad", .other)] false)
          (Data.ofStrings [("n", "4a")])
        = .ok ("<root></root>", none) ∧
      Process goRegexp renderXml
          (XmlBuilder.mk "" "root" [("bad", .other), ("n", .str "/^[0-9]+$/")] false)
          (Data.ofStrings [("n", "4a")])
        = .ok ("", some "Expects string schema for bad")) ∧
    (SchemaPerm [("n", .str "/^[0-9]+$/"), ("a", .str "")]
        [("a", .str ""), ("n", .str "/^[0-9]+$/")] ∧
      Process goRegexp renderXml
          (XmlBuilder.mk "" "root" [("n", .str "/^[0-9]+$/"), ("a", .str "")] false)
          (Data.ofStrings [("n", "4a")])
        = .ok ("<root></root>", none) ∧
      Process goRegexp renderXml
          (XmlBuilder.mk "" "root" [("a", .str ""), ("n", .str "/^[0-9]+$/")] false)
          (Data.ofStrings [("n", "4a")])
        = .ok ("<root><a></a></root>", none)) ∧
    (SchemaPerm [("@id", .str "x|y"), ("?@id", .str "")]
        [("?@id", .str ""), ("@id", .str "x|y")] ∧
      Process goRegexp renderXml
          (XmlBuilder.mk "" "root" [("@id", .str "x|y"), ("?@id", .str "")] false)
          (Data.ofStrings [("@id", "z")])
        = .ok ("<root id=\"z\"></root>", none) ∧
      Process goRegexp renderXml
          (XmlBuilder.mk "" "root" [("?@id", .str ""), ("@id", .str "x|y")] false)
          (Data.ofStrings [("@id", "z")])
        = .ok ("<root id=\"x\"></root>", none)) :=
  ⟨⟨SchemaPerm.swap "n" "bad" (.str _) .other .nil, by decide, by decide⟩,
   ⟨SchemaPerm.swap "n" "a" (.str _) (.str _) .nil, by decide, by decide⟩,
   ⟨SchemaPerm.swap "@id" "?@id" (.str _) (.str _) .nil, by decide, by decide⟩⟩

/-- C11, amended. For two iteration orders of the same schema entries (at every
nesting level) and a data bag for which the iteration of every top-level entry
either ends with a structural error or goes on with every nested walk going
through all of its entries (no failed validation, no panic, no nested
structural error), and when no two keys of one schema level name the same
attribute: either `Process` succeeds under both orders, and the two output trees
contain the same elements, attributes and texts, differing at most in the order
of siblings, or `Process` returns an error under both orders. -/
theorem C11_order_independent (L : RegexpLib) (WriteToString : Element → String)
    (x y : XmlBuilder) (data : Data) (hroot : y.RootNode = x.RootNode)
    (hperm : SchemaPerm x.Schema y.Schema)
    (hsteady : steadySchema L x.Schema data = true)
    (hdist : distinctAttrs x.Schema = true) :
    (∃ t1 t2, Process L WriteToString x data = .ok (WriteToString t1, none) ∧
      Process L WriteToString y data = .ok (WriteToString t2, none) ∧
      processSchema L x.Schema data (Element.new x.RootNode) = .ok (t1, none) ∧
      processSchema L y.Schema data (Element.new y.RootNode) = .ok (t2, none) ∧
      SameTree t1 t2) ∨
    (∃ e1 e2, Process L WriteToString x data = .ok ("", some e1) ∧
      Process L WriteToString y data = .ok ("", some e2)) := by
  unfold distinctAttrs at hdist
  rw [Bool.and_eq_true, decide_eq_true_eq] at hdist
  have hW := walkAgree_of_perm L hperm
  obtain ⟨hsT, hany⟩ := steady_of_perm L hperm data hdist.2
  obtain ⟨sx1, sx2⟩ := processSchema_steady L data x.Schema hdist.2 hsteady
  obtain ⟨sy1, sy2⟩ := processSchema_steady L data y.Schema (hW.2.1 hdist.2) (hsT hsteady)
  cases hf : x.Schema.any (fun entry => faultyEntry entry.1 entry.2 data) with
  | true =>
    obtain ⟨r1, e1, h1⟩ := sx1 hf (Element.new x.RootNode)
    obtain ⟨r2, e2, h2⟩ := sy1 (hany ▸ hf) (Element.new y.RootNode)
    exact Or.inr ⟨e1, e2, by rw [Process, h1], by rw [Process, h2]⟩
  | false =>
    have hq := sx2 hf
    obtain ⟨_, hw⟩ := hW.2.2 data hq hdist.2
    obtain ⟨t1, t2, w1, w2, hs⟩ := hw (Element.new x.RootNode) (Element.new x.RootNode)
      (sameTree_refl _) (fresh_new x.Schema x.RootNode hdist.1)
    have p1 := processSchema_of_walkThrough L x.Schema data _ t1 w1
    have p2 := processSchema_of_walkThrough L y.Schema data _ t2 w2
    rw [← hroot] at p2
    exact Or.inl ⟨t1, t2, by rw [Process, p1], by rw [Process, p2], p1, p2, hs⟩

/-- Witness of the amended C11: a schema with an array of records, in two
orders at both levels; both calls succeed. -/
theorem C11_order_independent_witness :
    ((XmlBuilder.mk "" "root"
          [(":items:item", .map [("name", .str ""), ("@id", .str "")]), ("title", .str "")]
          false).RootNode
        = (XmlBuilder.mk "" "root"
          [("title", .str ""), (":items:item", .map [("@id", .str ""), ("name", .str "")])]
          false).RootNode ∧
      SchemaPerm
        (XmlBuilder.mk "" "root"
          [("title", .str ""), (":items:item", .map [("@id", .str ""), ("name", .str "")])]
          false).Schema
        (XmlBuilder.mk "" "root"
          [(":items:item", .map [("name", .str ""), ("@id", .str "")]), ("title", .str "")]
          false).Schema ∧
      steadySchema goRegexp
        (XmlBuilder.mk "" "root"
          [("title", .str ""), (":items:item", .map [("@id", .str ""), ("name", .str "")])]
          false).Schema
        (Data.withSlice [("title", "t")] "items" [Data.ofStrings [("@id", "1"), ("name", "a")]])
        = true ∧
      distinctAttrs
        (XmlBuilder.mk "" "root"
          [("title", .str ""), (":items:item", .map [("@id", .str ""), ("name", .str "")])]
          false).Schema = true) ∧
    Process goRegexp renderXml
        (XmlBuilder.mk "" "root"
          [("title", .str ""), (":items:item", .map [("@id", .str ""), ("name", .str "")])]
          false)
        (Data.withSlice [("title", "t")] "items" [Data.ofStrings [("@id", "1"), ("name", "a")]])
      = .ok ("<root><title>t</title><items><item id=\"1\"><name>a</name></item></items></root>",
          none) ∧
    Process goRegexp renderXml
        (XmlBuilder.mk "" "root"
          [(":items:item", .map [("name", .str ""), ("@id", .str "")]), ("title", .str "")]
          false)
        (Data.withSlice [("title", "t")] "items" [Data.ofStrings [("@id", "1"), ("name", "a")]])
      = .ok ("<root><items><item id=\"1\"><name>a</name></item></items><title>t</title></root>",
          none) ∧
    ((∃ t1 t2,
        Process goRegexp renderXml
            (XmlBuilder.mk "" "root"
              [("title", .str ""),
                (":items:item", .map [("@id", .str ""), ("name", .str "")])] false)
            (Data.withSlice [("title", "t")] "items"
              [Data.ofStrings [("@id", "1"), ("name", "a")]])
          = .ok (renderXml t1, none) ∧
        Process goRegexp renderXml
            (XmlBuilder.mk "" "root"
              [(":items:item", .map [("name", .str ""), ("@id", .str "")]),
                ("title", .str "")] false)
            (Data.withSlice [("title", "t")] "items"
              [Data.ofStrings [("@id", "1"), ("name", "a")]])
          = .ok (renderXml t2, none) ∧
        processSchema goRegexp
            (XmlBuilder.mk "" "root"
              [("title", .str ""),
                (":items:item", .map [("@id", .str ""), ("name", .str "")])] false).Schema
            (Data.withSlice [("title", "t")] "items"
              [Data.ofStrings [("@id", "1"), ("name", "a")]])
            (Element.new (XmlBuilder.mk "" "root"
              [("title", .str ""),
                (":items:item", .map [("@id", .str ""), ("name", .str "")])] false).RootNode)
          = .ok (t1, none) ∧
        processSchema goRegexp
            (XmlBuilder.mk "" "root"
              [(":items:item", .map [("name", .str ""), ("@id", .str "")]),
                ("title", .str "")] false).Schema
            (Data.withSlice [("title", "t")] "items"
              [Data.ofStrings [("@id", "1"), ("name", "a")]])
            (Element.new (XmlBuilder.mk "" "root"
              [(":items:item", .map [("name", .str ""), ("@id", .str "")]),
                ("title", .str "")] false).RootNode)
          = .ok (t2, none) ∧
        SameTree t1 t2) ∨
      (∃ e1 e2,
        Process goRegexp renderXml
            (XmlBuilder.mk "" "root"
              [("title", .str ""),
                (":items:item", .map [("@id", .str ""), ("name", .str "")])] false)
            (Data.withSlice [("title", "t")] "items"
              [Data.ofStrings [("@id", "1"), ("name", "a")]])
          = .ok ("", some e1) ∧
        Process goRegexp renderXml
            (XmlBuilder.mk "" "root"
              [(":items:item", .map [("name", .str ""), ("@id", .str "")]),
                ("title", .str "")] false)
            (Data.withSlice [("title", "t")] "items"
              [Data.ofStrings [("@id", "1"), ("name", "a")]])
          = .ok ("", some e2))) :=
  ⟨⟨rfl,
    SchemaPerm.swap "title" ":items:item" (.str _)
      (.map (SchemaPerm.swap "@id" "name" (.str _) (.str _) .nil)) .nil,
    by rfl, by decide⟩,
   by decide, by decide,
   C11_order_independent goRegexp renderXml
     (XmlBuilder.mk "" "root"
       [("title", .str ""), (":items:item", .map [("@id", .str ""), ("name", .str "")])]
       false)
     (XmlBuilder.mk "" "root"
       [(":items:item", .map [("name", .str ""), ("@id", .str "")]), ("title", .str "")]
       false)
     (Data.withSlice [("title", "t")] "items" [Data.ofStrings [("@id", "1"), ("name", "a")]])
     rfl
     (SchemaPerm.swap "title" ":items:item" (.str _)
       (.map (SchemaPerm.swap "@id" "name" (.str _) (.str _) .nil)) .nil)
     (by rfl) (by decide)⟩

end ObjxXml
